import Mathlib

/-!
Verification of the show-scheduling engine (`Scheduling_Script.py`, with
configuration constants from `constants.py`).

Shallow embedding conventions:
* A calendar date is its day number (`Nat`), with day 0 a Monday, so the
  weekday of day `d` is `d % 7` (0 = Monday … 6 = Sunday), matching
  `datetime.weekday()` under `d + timedelta(days=1)` ↦ `d + 1`.
* Times of day are minutes from midnight (`Nat`), exactly as the script's
  `minutes : time → int` conversion produces.
* The Python `dict`/`set` state is modelled by association lists with
  Python's insertion semantics (`dictInsert` overwrites in place on key
  collision and appends otherwise; sets add only unseen elements).
* The two floating-point formulas (`math.ceil(students * (1.0 + BUFFER_PCT))`
  and `math.ceil((day_weight / total_weight) * seats_required)`) are modelled
  by exact IEEE-754 binary64 arithmetic: every double is a dyadic rational
  `m · 2^e`, and `fpOfRat` implements round-to-nearest, ties to even, with
  53-bit significands and the subnormal quantum `2^-1074`.  Only inputs so
  astronomically large that binary64 would overflow to infinity (where
  `math.ceil` raises `OverflowError`) fall outside the modelled range: there
  the model keeps rounding with an unbounded exponent.
* `pandas` operations are modelled by their documented semantics:
  `groupby(...).agg(min, max)` over the `(Course, Mod/Act)` keys and a
  sort by the given columns (`List.insertionSort` on the corresponding
  keys; sort order differences can only arise between rows whose sort
  keys tie).
* Errors (`raise ValueError`) are modelled by `Except`.
-/

/-- `BREAK_LEN` from `constants.py`: minutes of break between different
activities in the same pod. -/
def BREAK_LEN : Nat := 10

/-- `STEP_MIN` from `constants.py`: the 5-minute start-time grid. -/
def STEP_MIN : Nat := 5

/-- `minutes START_HOUR` where `START_HOUR = time(9, 0)`. -/
def START_MIN : Nat := 540

/-- `minutes END_HOUR_REGULAR` where `END_HOUR_REGULAR = time(17, 0)`. -/
def END_REGULAR_MIN : Nat := 1020

/-- `minutes END_HOUR_FRIDAY` where `END_HOUR_FRIDAY = time(13, 0)`. -/
def END_FRIDAY_MIN : Nat := 780

/-- `DEFAULT_STUDENTS_OTHER` from `constants.py`. -/
def DEFAULT_STUDENTS_OTHER : Nat := 200

/-- `DEFAULT_SHOW_LEN` from `constants.py`. -/
def DEFAULT_SHOW_LEN : Nat := 20

/-- A pod record, as in the `PODS` table of `constants.py`. -/
structure Pod where
  pod : String
  capacity : Nat
  ops_group : String
deriving DecidableEq, Repr

/-- The `PODS` inventory from `constants.py`. -/
def PODS : List Pod :=
  [⟨"CRTVC 1", 6, "B"⟩, ⟨"CRTVC 2", 6, "B"⟩, ⟨"CRTVC 3", 24, "A"⟩,
   ⟨"CRTVC 4", 24, "A"⟩, ⟨"CRTVC 5", 28, "B"⟩, ⟨"CRTVC 6", 28, "B"⟩]

/-- `OPS_GROUP` mapping derived from `PODS` (as in `constants.py`). -/
def OPS_GROUP (pod : String) : String :=
  ((PODS.find? (fun p => p.pod == pod)).map Pod.ops_group).getD ""

/-- `POD_CAPACITY` mapping derived from `PODS` (as in `constants.py`). -/
def POD_CAPACITY (pod : String) : Nat :=
  ((PODS.find? (fun p => p.pod == pod)).map Pod.capacity).getD 0

/-- `SHOW_LENGTH_MAP` from `constants.py`. -/
def SHOW_LENGTH_MAP : List (String × Nat) :=
  [("Bio", 30), ("CHM", 30), ("Astronomy", 30), ("Art", 30), ("Scm", 20)]

/-- The first whitespace-separated word of a course name
(`course.split()[0] if course else ""` in `get_show_length`). -/
def firstWord (course : String) : String :=
  String.mk (((course.data.splitOn ' ').filter (fun w => w ≠ [])).headD [])

/-- Lexicographic strictly-less on character lists by code point, exactly
Python's string `<`. -/
def charsLt : List Char → List Char → Bool
  | [], [] => false
  | [], _ :: _ => true
  | _ :: _, [] => false
  | a :: as, b :: bs =>
    if a.toNat < b.toNat then true
    else if b.toNat < a.toNat then false
    else charsLt as bs

/-- Lexicographic less-or-equal on character lists by code point, exactly
Python's string `<=`. -/
def charsLe : List Char → List Char → Bool
  | [], _ => true
  | _ :: _, [] => false
  | a :: as, b :: bs =>
    if a.toNat < b.toNat then true
    else if b.toNat < a.toNat then false
    else charsLe as bs

/-- Python string `<` (code-point lexicographic). -/
def strLt (a b : String) : Bool := charsLt a.data b.data

/-- Python string `<=` (code-point lexicographic). -/
def strLe (a b : String) : Bool := charsLe a.data b.data

/-- `get_show_length` from `Scheduling_Script.py`: show length from the
course-name first word, with the default for unmapped courses. -/
def get_show_length (course : String) : Nat :=
  ((SHOW_LENGTH_MAP.lookup (firstWord course))).getD DEFAULT_SHOW_LEN

/-- Number of binary digits of `n` (0 for 0), via a fuel argument so that
it is structurally recursive. -/
def bitlenAux : Nat → Nat → Nat
  | 0, _ => 0
  | fuel + 1, n => if n ≤ 1 then 1 else bitlenAux fuel (n / 2) + 1

/-- Number of binary digits of `n`: `2 ^ (bitlen n - 1) ≤ n < 2 ^ bitlen n`
for positive `n`. -/
def bitlen (n : Nat) : Nat := if n = 0 then 0 else bitlenAux n n

/-- The fraction `(a / b) · 2^s` as a quotient of naturals: the power of
two goes onto the numerator or the denominator according to the sign. -/
def fpShift (a b : Nat) (s : Int) : Nat × Nat :=
  if 0 ≤ s then (a * 2 ^ s.toNat, b) else (a, b * 2 ^ (-s).toNat)

/-- Round `(a / b) · 2^s` to the nearest natural number, ties to even
(the IEEE-754 default rounding used by every CPython float operation). -/
def fpRoundAt (a b : Nat) (s : Int) : Nat :=
  let p := fpShift a b s
  let m0 := p.1 / p.2
  let r := p.1 % p.2
  if p.2 < 2 * r then m0 + 1
  else if 2 * r < p.2 then m0
  else if m0 % 2 = 0 then m0 else m0 + 1

/-- Round the nonnegative rational `(a / b) · 2^eoff` (`b > 0`) to the
nearest IEEE-754 binary64 value, as an exact dyadic pair `(m, e)` of
value `m · 2^e`: 53 significant bits, round-to-nearest ties-to-even, and
the subnormal quantum `2^-1074` below the normal range.  (The exponent is
not capped above: inputs that would overflow to infinity — where CPython's
`math.ceil` raises — are outside the modelled range.) -/
def fpOfRat (a b : Nat) (eoff : Int) : Nat × Int :=
  if a = 0 then (0, 0)
  else
    let f0 : Int := (bitlen a : Int) - (bitlen b : Int)
    let ge : Bool :=
      if 0 ≤ f0 then decide (b * 2 ^ f0.toNat ≤ a)
      else decide (b ≤ a * 2 ^ (-f0).toNat)
    let f : Int := if ge then f0 else f0 - 1
    let e : Int := max (f + eoff - 52) (-1074)
    (fpRoundAt a b (eoff - e), e)

/-- CPython's int-to-double conversion (exact below `2^53`, correctly
rounded above). -/
def fpInt (n : Nat) : Nat × Int := fpOfRat n 1 0

/-- IEEE-754 binary64 multiplication on dyadic values: exact product,
one rounding. -/
def fpMulRound (x y : Nat × Int) : Nat × Int := fpOfRat (x.1 * y.1) 1 (x.2 + y.2)

/-- IEEE-754 binary64 addition on dyadic values: exact sum, one
rounding. -/
def fpAddRound (x y : Nat × Int) : Nat × Int :=
  let e := min x.2 y.2
  fpOfRat (x.1 * 2 ^ (x.2 - e).toNat + y.1 * 2 ^ (y.2 - e).toNat) 1 e

/-- CPython's `int / int` true division: the correctly rounded binary64
quotient. -/
def fpDivRound (a b : Nat) : Nat × Int := fpOfRat a b 0

/-- `math.ceil` of a nonnegative binary64 value `m · 2^e` (exact). -/
def fpCeil (x : Nat × Int) : Nat :=
  if 0 ≤ x.2 then x.1 * 2 ^ x.2.toNat
  else
    let d := 2 ^ (-x.2).toNat
    x.1 / d + (if x.1 % d = 0 then 0 else 1)

/-- `BUFFER_PCT = 0.10` from `constants.py`: the binary64 value of the
literal `0.10`, i.e. the nearest double to `1/10`. -/
def BUFFER_PCT : Nat × Int := fpOfRat 1 10 0

/-- The binary64 sum `1.0 + BUFFER_PCT` computed inside `schedule`. -/
def ONE_PLUS_BUFFER : Nat × Int := fpAddRound (1, 0) BUFFER_PCT

/-- `seats_required = math.ceil(student_count * (1.0 + BUFFER_PCT))` with
the binary64 arithmetic modelled exactly: the int converts to a double,
one multiplication rounding, then the exact ceiling.  In particular
`seats_required 100 = 111` and `seats_required 100000 = 110001`, exactly
as the program computes (not the rational `⌈11n/10⌉`). -/
def seats_required (n : Nat) : Nat :=
  fpCeil (fpMulRound (fpInt n) ONE_PLUS_BUFFER)

/-- `daily_target = math.ceil((day_weight / total_weight) * seats_required)`
with the binary64 arithmetic modelled exactly: correctly rounded
`int / int` true division, int-to-double conversion of the requirement,
one multiplication rounding, then the exact ceiling. -/
def daily_target (w T req : Nat) : Nat :=
  fpCeil (fpMulRound (fpDivRound w T) (fpInt req))

/-- `is_holiday` from `Scheduling_Script.py`. -/
def is_holiday (d : Nat) (holidays : List Nat) : Bool := holidays.contains d

/-- `business_days_inclusive` from `Scheduling_Script.py`: all days of the
inclusive range whose weekday is Mon–Fri and which are not holidays. -/
def business_days_inclusive (start e : Nat) (holidays : List Nat) : List Nat :=
  (List.range' start (e + 1 - start)).filter
    (fun d => decide (d % 7 < 5) && !(is_holiday d holidays))

/-- `get_end_hour_for_date` from `Scheduling_Script.py`, already converted
to minutes: early closing on Fridays (`weekday == 4`). -/
def get_end_hour_min (day : Nat) : Nat :=
  if day % 7 = 4 then END_FRIDAY_MIN else END_REGULAR_MIN

/-- Python `range(start, stop, step)` over naturals (`step > 0`). -/
def pyRange (start stop step : Nat) : List Nat :=
  List.range' start ((stop - start + step - 1) / step) step

/-- `candidate_starts_for_date` from `Scheduling_Script.py`:
`range(minutes(START_HOUR), minutes(end_hour) - show_len + 1, STEP_MIN)`. -/
def candidate_starts_for_date (day showLen : Nat) : List Nat :=
  pyRange START_MIN (get_end_hour_min day - showLen + 1) STEP_MIN

/-- One raw demand row `(Course, Mod/Act, Open Date, Close Date)` with the
dates already parsed to day numbers. -/
structure Row where
  course : String
  modAct : String
  openD : Nat
  closeD : Nat
deriving DecidableEq, Repr

/-- One demand window produced by the groupby aggregation in `schedule`. -/
structure Window where
  course : String
  modAct : String
  openD : Nat
  closeD : Nat
deriving DecidableEq, Repr

/-- A booking: the value stored by `place` in `all_bookings` under key
`(day_key, pod, start_min)`, together with that key. -/
structure Booking where
  day : Nat
  pod : String
  start : Nat
  course : String
  modAct : String
  endMin : Nat
  showLen : Nat
deriving DecidableEq, Repr

/-- One row of the schedule output (`schedule_rows` entries), with times in
minutes from midnight and the date as a day number. -/
structure SRow where
  course : String
  modAct : String
  day : Nat
  start : Nat
  endMin : Nat
  pod : String
  cap : Nat
  showLen : Nat
deriving DecidableEq, Repr

/-- One row of the summary output (`summary_rows` entries). -/
structure SummaryRow where
  course : String
  modAct : String
  students : Nat
  seatsReq : Nat
  scheduledSeats : Nat
  showsScheduled : Nat
  showLen : Nat
  openD : Nat
  closeD : Nat
deriving DecidableEq, Repr

/-- The two `raise ValueError` cases of `schedule`: the no-business-days
configuration error and the insufficient-capacity error (which carries the
window identity plus the scheduled and required seat counts). -/
inductive SchedError where
  | configError (course modAct : String)
  | capacityError (course modAct : String) (placed required : Nat)
deriving DecidableEq, Repr

/-- The mutable state internal to `schedule`: the ops-team used start/end
sets, the booking dict, the pod usage counters, and the accumulated
schedule and summary rows. -/
structure St where
  opsStarts : List (Nat × String × Nat)
  opsEnds : List (Nat × String × Nat)
  bookings : List Booking
  podUsage : List (String × Nat)
  scheduleRows : List SRow
  summaryRows : List SummaryRow
deriving Repr

/-- The initial state of a run of `schedule`. -/
def initSt : St :=
  ⟨[], [], [], PODS.map (fun p => (p.pod, 0)), [], []⟩

/-- The per-existing-booking body of `can_place`'s conflict loop: `true`
iff booking `b` does not rule out the candidate placement. -/
def booking_ok (day : Nat) (pod : String) (startMin endMin : Nat)
    (course modAct : String) (b : Booking) : Bool :=
  if b.day = day ∧ b.pod = pod then
    if b.course = course ∧ b.modAct = modAct then
      decide (endMin ≤ b.start ∨ startMin ≥ b.endMin)
    else if startMin < b.endMin + BREAK_LEN ∧ endMin > b.start then false
    else if b.start < endMin + BREAK_LEN ∧ b.endMin > startMin then false
    else true
  else true

/-- `can_place` from `Scheduling_Script.py` (the early-`return False` chain
rendered as a short-circuit conjunction): ops-team start and end
uniqueness, the closing-time bound, and the per-pod conflict loop. -/
def can_place (st : St) (day : Nat) (pod grp : String) (startMin : Nat)
    (course modAct : String) (showLen : Nat) : Bool :=
  let endMin := startMin + showLen
  !(decide ((day, grp, startMin) ∈ st.opsStarts)) &&
  (!(decide ((day, grp, endMin) ∈ st.opsEnds)) &&
  (!(decide (endMin > get_end_hour_min day)) &&
  st.bookings.all (booking_ok day pod startMin endMin course modAct)))

/-- The key of `all_bookings`: `(day_key, pod, start_min)`. -/
def sameKey (a b : Booking) : Bool :=
  a.day == b.day && a.pod == b.pod && a.start == b.start

/-- Python dict assignment `all_bookings[(day, pod, start)] = v`:
overwrite in place if the key is present, append otherwise. -/
def dictInsert (l : List Booking) (b : Booking) : List Booking :=
  if l.any (fun x => sameKey x b) then l.map (fun x => if sameKey x b then b else x)
  else l ++ [b]

/-- The booking value `place` stores (key plus value fields). -/
def mkBooking (day : Nat) (pod : String) (startMin : Nat)
    (course modAct : String) (showLen : Nat) : Booking :=
  ⟨day, pod, startMin, course, modAct, startMin + showLen, showLen⟩

/-- `place` from `Scheduling_Script.py`: record the ops-team start/end,
insert the booking, bump the pod usage counter. -/
def place (st : St) (day : Nat) (pod grp : String) (startMin : Nat)
    (course modAct : String) (showLen : Nat) : St :=
  let endMin := startMin + showLen
  { st with
    opsStarts := st.opsStarts.insert (day, grp, startMin),
    opsEnds := st.opsEnds.insert (day, grp, endMin),
    bookings := dictInsert st.bookings (mkBooking day pod startMin course modAct showLen),
    podUsage := st.podUsage.map (fun kv => if kv.1 = pod then (kv.1, kv.2 + 1) else kv) }

/-- `pod_usage_count[pod]`. -/
def usageOf (st : St) (pod : String) : Nat := (st.podUsage.lookup pod).getD 0

/-- The sort key order of `pods_sorted_for_slot`: capacity descending,
then usage count ascending (`key = (-capacity, usage)`). -/
def podLe (st : St) (p q : Pod) : Prop :=
  q.capacity < p.capacity ∨
    (q.capacity = p.capacity ∧ usageOf st p.pod ≤ usageOf st q.pod)

instance (st : St) : DecidableRel (podLe st) := fun p q => by
  unfold podLe; exact inferInstance

/-- `pods_sorted_for_slot` from `Scheduling_Script.py`. Python's `sorted`
is a stable sort, as is `List.insertionSort`, and a stable sort by a total
preorder is unique, so the two agree. -/
def pods_sorted_for_slot (st : St) : List Pod := List.insertionSort (podLe st) PODS

/-- The schedule row appended for a successful placement. -/
def mkSRow (day : Nat) (p : Pod) (startMin : Nat)
    (course modAct : String) (showLen : Nat) : SRow :=
  ⟨course, modAct, day, startMin, startMin + showLen, p.pod, p.capacity, showLen⟩

/-- A successful placement: `place(...)` followed by
`schedule_rows.append({...})`. -/
def placeAndRecord (st : St) (day : Nat) (p : Pod) (startMin : Nat)
    (course modAct : String) (showLen : Nat) : St :=
  let st' := place st day p.pod p.ops_group startMin course modAct showLen
  { st' with scheduleRows := st'.scheduleRows ++ [mkSRow day p startMin course modAct showLen] }

/-- The inner pod loop shared by both passes: try the pods in the given
order and place in the first pod for which `can_place` succeeds, returning
the new state and that pod's capacity. -/
def tryPods (st : St) (day startMin : Nat) (course modAct : String)
    (showLen : Nat) : List Pod → Option (St × Nat)
  | [] => none
  | p :: ps =>
    if can_place st day p.pod p.ops_group startMin course modAct showLen then
      some (placeAndRecord st day p startMin course modAct showLen, p.capacity)
    else tryPods st day startMin course modAct showLen ps

/-- The Pass-1 candidate-start loop for one day, threading
`(state, total_capacity, day_capacity_filled, shows_for_pair)`. -/
def pass1Starts (st : St) (day : Nat) (course modAct : String)
    (showLen seatsReq dailyTarget : Nat) (tc df sh : Nat) :
    List Nat → St × Nat × Nat × Nat
  | [] => (st, tc, df, sh)
  | s :: rest =>
    if seatsReq ≤ tc ∨ dailyTarget ≤ df then (st, tc, df, sh)
    else
      match tryPods st day s course modAct showLen (pods_sorted_for_slot st) with
      | some (st', cap) =>
          pass1Starts st' day course modAct showLen seatsReq dailyTarget
            (tc + cap) (df + cap) (sh + 1) rest
      | none =>
          pass1Starts st day course modAct showLen seatsReq dailyTarget tc df sh rest

/-- `total_weight = sum(range(1, num_days + 1))`. -/
def totalWeightOf (n : Nat) : Nat := (List.range' 1 n).sum

/-- The Pass-1 day loop (`for i, d in enumerate(days)`), with
`daily_target = math.ceil((day_weight / total_weight) * seats_required)`
computed in exactly modelled binary64 arithmetic; threads
`(state, total_capacity, shows_for_pair)`. -/
def pass1Days (st : St) (course modAct : String)
    (showLen seatsReq totalWeight : Nat) (i tc sh : Nat) :
    List Nat → St × Nat × Nat
  | [] => (st, tc, sh)
  | d :: ds =>
    if seatsReq ≤ tc then (st, tc, sh)
    else
      let dailyTarget := daily_target (i + 1) totalWeight seatsReq
      match pass1Starts st d course modAct showLen seatsReq dailyTarget tc 0 sh
          (candidate_starts_for_date d showLen) with
      | (st', tc', _, sh') =>
          pass1Days st' course modAct showLen seatsReq totalWeight (i + 1) tc' sh' ds

/-- The Pass-2 candidate-start loop for one day (no daily target). -/
def pass2Starts (st : St) (day : Nat) (course modAct : String)
    (showLen seatsReq : Nat) (tc sh : Nat) :
    List Nat → St × Nat × Nat
  | [] => (st, tc, sh)
  | s :: rest =>
    if seatsReq ≤ tc then (st, tc, sh)
    else
      match tryPods st day s course modAct showLen (pods_sorted_for_slot st) with
      | some (st', cap) =>
          pass2Starts st' day course modAct showLen seatsReq (tc + cap) (sh + 1) rest
      | none => pass2Starts st day course modAct showLen seatsReq tc sh rest

/-- The Pass-2 day loop (`for d in reversed(days)`); the caller passes the
reversed day list. -/
def pass2Days (st : St) (course modAct : String) (showLen seatsReq : Nat)
    (tc sh : Nat) : List Nat → St × Nat × Nat
  | [] => (st, tc, sh)
  | d :: ds =>
    if seatsReq ≤ tc then (st, tc, sh)
    else
      match pass2Starts st d course modAct showLen seatsReq tc sh
          (candidate_starts_for_date d showLen) with
      | (st', tc', sh') =>
          pass2Days st' course modAct showLen seatsReq tc' sh' ds

/-- Pass 1 over the window's days followed, if the requirement is still
unmet, by Pass 2 over the reversed day list. -/
def runPasses (course modAct : String) (showLen seatsReq : Nat) (st : St)
    (days : List Nat) : St × Nat × Nat :=
  let r1 := pass1Days st course modAct showLen seatsReq (totalWeightOf days.length)
    0 0 0 days
  if r1.2.1 < seatsReq then
    pass2Days r1.1 course modAct showLen seatsReq r1.2.1 r1.2.2 days.reverse
  else r1

/-- The body of `schedule`'s main loop for one window: seat requirement,
show length, business days (configuration error if none), Pass 1, Pass 2 if
needed, capacity error if still short, else the summary row. -/
def processWindow (students : List (String × Nat)) (holidays : List Nat)
    (st : St) (w : Window) : Except SchedError St :=
  let studentCount := (students.lookup w.course).getD DEFAULT_STUDENTS_OTHER
  let seatsReq := seats_required studentCount
  let showLen := get_show_length w.course
  let days := business_days_inclusive w.openD w.closeD holidays
  if days.isEmpty then .error (.configError w.course w.modAct)
  else
    let r2 := runPasses w.course w.modAct showLen seatsReq st days
    if r2.2.1 < seatsReq then .error (.capacityError w.course w.modAct r2.2.1 seatsReq)
    else .ok { r2.1 with summaryRows := r2.1.summaryRows ++
      [⟨w.course, w.modAct, studentCount, seatsReq, r2.2.1, r2.2.2, showLen, w.openD, w.closeD⟩] }

/-- The main loop of `schedule` over the ordered window list. -/
def processWindows (students : List (String × Nat)) (holidays : List Nat) :
    St → List Window → Except SchedError St
  | st, [] => .ok st
  | st, w :: ws =>
    match processWindow students holidays st w with
    | .error e => .error e
    | .ok st' => processWindows students holidays st' ws

/-- The `(Course, Mod/Act)` key of a raw demand row. -/
def rowKey (r : Row) : String × String := (r.course, r.modAct)

/-- The `(Course, Mod/Act)` key of a window. -/
def winKey (w : Window) : String × String := (w.course, w.modAct)

/-- Lexicographic order on `(Course, Mod/Act)` keys (the groupby key
order). -/
def keyLe (a b : String × String) : Prop :=
  strLt a.1 b.1 = true ∨ (a.1 = b.1 ∧ strLe a.2 b.2 = true)

instance : DecidableRel keyLe := fun a b => by
  unfold keyLe; exact inferInstance

/-- The `sort_values(["close_date", "open_date"])` order on windows. -/
def winLe (a b : Window) : Prop :=
  a.closeD < b.closeD ∨ (a.closeD = b.closeD ∧ a.openD ≤ b.openD)

instance : DecidableRel winLe := fun a b => by
  unfold winLe; exact inferInstance

/-- The rows of `data` belonging to one `(Course, Mod/Act)` group. -/
def rowsFor (data : List Row) (k : String × String) : List Row :=
  data.filter (fun r => decide (r.course = k.1) && decide (r.modAct = k.2))

/-- Minimum of a list of day numbers (the groupby `min` aggregate; only
applied to nonempty groups). -/
def listMin : List Nat → Nat
  | [] => 0
  | x :: xs => xs.foldl Nat.min x

/-- Maximum of a list of day numbers (the groupby `max` aggregate). -/
def listMax : List Nat → Nat
  | [] => 0
  | x :: xs => xs.foldl Nat.max x

/-- The window-building step of `schedule`: group the rows by
`(Course, Mod/Act)` (groupby sorts the keys), aggregate
`min` of open dates and `max` of close dates, and sort by
`(close_date, open_date)`. -/
def buildWindows (data : List Row) : List Window :=
  let keys := List.insertionSort keyLe ((data.map rowKey).dedup)
  List.insertionSort winLe (keys.map (fun k =>
    Window.mk k.1 k.2 (listMin ((rowsFor data k).map Row.openD))
      (listMax ((rowsFor data k).map Row.closeD))))

/-- The `sort_values(["Date", "Start", "Pod"])` order on schedule rows. -/
def rowLe (a b : SRow) : Prop :=
  a.day < b.day ∨ (a.day = b.day ∧
    (a.start < b.start ∨ (a.start = b.start ∧ strLe a.pod b.pod = true)))

instance : DecidableRel rowLe := fun a b => by
  unfold rowLe; exact inferInstance

/-- The `sort_values(["Course", "Mod/Act"])` order on summary rows. -/
def summaryLe (a b : SummaryRow) : Prop :=
  strLt a.course b.course = true ∨ (a.course = b.course ∧ strLe a.modAct b.modAct = true)

instance : DecidableRel summaryLe := fun a b => by
  unfold summaryLe; exact inferInstance

/-- `schedule` from `Scheduling_Script.py`: build the windows, run the
main loop from the empty state, and emit the sorted schedule and summary
outputs. -/
def schedule (students : List (String × Nat)) (data : List Row)
    (holidays : List Nat) : Except SchedError (List SRow × List SummaryRow) :=
  match processWindows students holidays initSt (buildWindows data) with
  | .error e => .error e
  | .ok st => .ok (List.insertionSort rowLe st.scheduleRows,
                   List.insertionSort summaryLe st.summaryRows)

/-!  ## Basic facts about the configuration and the helper functions -/

/-- The derived pod mappings agree with the inventory, every capacity is
at most the largest capacity 28, and the pod names are distinct. -/
theorem pods_config_facts :
    (∀ p ∈ PODS, OPS_GROUP p.pod = p.ops_group ∧ POD_CAPACITY p.pod = p.capacity ∧
      p.capacity ≤ 28) ∧ (PODS.map Pod.pod).Nodup := by decide

/-- `get_show_length` returns one of the two configured durations. -/
theorem get_show_length_cases (c : String) :
    get_show_length c = 20 ∨ get_show_length c = 30 := by
  unfold get_show_length DEFAULT_SHOW_LEN
  rcases h : SHOW_LENGTH_MAP.lookup (firstWord c) with _ | v
  · simp
  · simp only [Option.getD_some]
    simp only [SHOW_LENGTH_MAP, List.lookup] at h
    repeat' split at h
    all_goals simp_all

/-- Show lengths are positive. -/
theorem get_show_length_pos (c : String) : 0 < get_show_length c := by
  rcases get_show_length_cases c with h | h <;> omega

/-- Candidate starts lie on the 5-minute grid at or after opening. -/
theorem mem_candidate_starts {day len s : Nat}
    (h : s ∈ candidate_starts_for_date day len) :
    START_MIN ≤ s ∧ (s - START_MIN) % STEP_MIN = 0 := by
  simp only [candidate_starts_for_date, pyRange, List.mem_range'] at h
  obtain ⟨i, hi, rfl⟩ := h
  simp only [START_MIN, STEP_MIN]
  omega

/-- Candidate starts are strictly increasing. -/
theorem candidate_starts_ascending (day len : Nat) :
    (candidate_starts_for_date day len).Pairwise (· < ·) := by
  unfold candidate_starts_for_date pyRange
  exact List.pairwise_lt_range' _ _ STEP_MIN (by simp [STEP_MIN])

/-- Members of `business_days_inclusive` are weekdays outside the holiday
set and lie in the inclusive range. -/
theorem mem_business_days {a b d : Nat} {hol : List Nat}
    (h : d ∈ business_days_inclusive a b hol) :
    (d % 7 < 5 ∧ d ∉ hol) ∧ (a ≤ d ∧ d ≤ b) := by
  simp only [business_days_inclusive, List.mem_filter, is_holiday,
    Bool.and_eq_true, decide_eq_true_eq, Bool.not_eq_true',
    List.mem_range'] at h
  obtain ⟨⟨i, hi, rfl⟩, h2, h3⟩ := h
  exact ⟨⟨h2, by simpa using h3⟩, by omega⟩

/-!  ## The run invariant -/

/-- Forget a schedule row's capacity column: the booking it records. -/
def rowToBooking (r : SRow) : Booking :=
  ⟨r.day, r.pod, r.start, r.course, r.modAct, r.endMin, r.showLen⟩

/-- Pod-exclusivity and break-spacing between two bookings: if they share
a day and a pod then same-activity pairs do not overlap and
different-activity pairs are separated by at least `BREAK_LEN`. -/
def podSep (a b : Booking) : Prop :=
  a.day = b.day → a.pod = b.pod →
    (if a.course = b.course ∧ a.modAct = b.modAct
     then a.endMin ≤ b.start ∨ b.endMin ≤ a.start
     else a.endMin + BREAK_LEN ≤ b.start ∨ b.endMin + BREAK_LEN ≤ a.start)

/-- Ops-team slot exclusivity between two bookings: if they share a day
and an ops group then both their starts and their ends differ. -/
def opsSep (a b : Booking) : Prop :=
  a.day = b.day → OPS_GROUP a.pod = OPS_GROUP b.pod →
    a.start ≠ b.start ∧ a.endMin ≠ b.endMin

/-- The invariant maintained by every placement of a run: the ops-usage
sets cover the bookings, bookings are internally consistent
(`end = start + length`, positive length, on-grid start, within hours, on
a valid business day), all pairs satisfy pod separation and ops-team
exclusivity, and the booking dict mirrors the schedule rows. -/
structure RunInv (holidays : List Nat) (st : St) : Prop where
  link_start : ∀ b ∈ st.bookings, (b.day, OPS_GROUP b.pod, b.start) ∈ st.opsStarts
  link_end : ∀ b ∈ st.bookings, (b.day, OPS_GROUP b.pod, b.endMin) ∈ st.opsEnds
  end_eq : ∀ b ∈ st.bookings, b.endMin = b.start + b.showLen
  len_pos : ∀ b ∈ st.bookings, 0 < b.showLen
  sep : st.bookings.Pairwise podSep
  ops : st.bookings.Pairwise opsSep
  closing : ∀ b ∈ st.bookings, b.endMin ≤ get_end_hour_min b.day
  valid_day : ∀ b ∈ st.bookings, b.day % 7 < 5 ∧ b.day ∉ holidays
  grid : ∀ b ∈ st.bookings, START_MIN ≤ b.start ∧ (b.start - START_MIN) % STEP_MIN = 0
  rows_eq : st.bookings = st.scheduleRows.map rowToBooking

/-- The initial state satisfies the invariant. -/
theorem inv_initSt (holidays : List Nat) : RunInv holidays initSt := by
  constructor <;> simp [initSt]

/-- Unfolding of a successful `can_place`. -/
theorem can_place_iff {st : St} {day : Nat} {pod grp : String} {s : Nat}
    {c m : String} {len : Nat} :
    can_place st day pod grp s c m len = true ↔
      (day, grp, s) ∉ st.opsStarts ∧
      (day, grp, s + len) ∉ st.opsEnds ∧
      s + len ≤ get_end_hour_min day ∧
      ∀ b ∈ st.bookings, booking_ok day pod s (s + len) c m b = true := by
  simp [can_place, List.all_eq_true, not_lt]

/-- A booking that passes `booking_ok` satisfies pod separation against
the candidate booking. -/
theorem booking_ok_podSep {day : Nat} {pod : String} {s : Nat} {c m : String}
    {len : Nat} {b : Booking} (hbe : b.endMin = b.start + b.showLen)
    (hbl : 0 < b.showLen) (hl : 0 < len)
    (hok : booking_ok day pod s (s + len) c m b = true) :
    podSep b (mkBooking day pod s c m len) := by
  intro hd hp
  simp only [mkBooking] at hd hp ⊢
  unfold booking_ok at hok
  rw [if_pos ⟨hd, hp⟩] at hok
  by_cases hsame : b.course = c ∧ b.modAct = m
  · rw [if_pos hsame, decide_eq_true_eq] at hok
    rw [if_pos hsame]
    omega
  · rw [if_neg hsame] at hok
    rw [if_neg hsame]
    split at hok
    · exact absurd hok (by simp)
    · split at hok
      · exact absurd hok (by simp)
      · omega

/-- A booking that passes `booking_ok` does not share the dict key with
the candidate booking. -/
theorem booking_ok_not_sameKey {day : Nat} {pod : String} {s : Nat}
    {c m : String} {len : Nat} {b : Booking}
    (hbe : b.endMin = b.start + b.showLen) (hbl : 0 < b.showLen) (hl : 0 < len)
    (hok : booking_ok day pod s (s + len) c m b = true) :
    ¬ sameKey b (mkBooking day pod s c m len) = true := by
  intro hk
  simp only [sameKey, mkBooking, Bool.and_eq_true, beq_iff_eq] at hk
  obtain ⟨⟨hd, hp⟩, hst⟩ := hk
  have := booking_ok_podSep hbe hbl hl hok hd hp
  simp only [mkBooking] at this
  by_cases hsame : b.course = c ∧ b.modAct = m
  · rw [if_pos hsame] at this; omega
  · rw [if_neg hsame] at this; omega

/-- When no existing booking shares the candidate's key, the Python dict
assignment is an append. -/
theorem dictInsert_append {l : List Booking} {nb : Booking}
    (h : ∀ b ∈ l, ¬ sameKey b nb = true) : dictInsert l nb = l ++ [nb] := by
  have hany : ¬ (l.any (fun x => sameKey x nb) = true) := by
    rw [List.any_eq_true]
    rintro ⟨b, hb, hk⟩
    exact h b hb hk
  unfold dictInsert
  rw [if_neg hany]

/-- The main step lemma: a placement guarded by `can_place`, on a valid
business day at an on-grid start, preserves the run invariant; the
booking dict and the schedule rows are extended by exactly one entry, the
summary rows are untouched, and the placed capacity is at most 28. -/
theorem inv_placeAndRecord {holidays : List Nat} {st : St} {day s len : Nat}
    {c m : String} {p : Pod}
    (hInv : RunInv holidays st) (hp : p ∈ PODS)
    (hday : day % 7 < 5) (hhol : day ∉ holidays)
    (hg1 : START_MIN ≤ s) (hg2 : (s - START_MIN) % STEP_MIN = 0)
    (hl : 0 < len)
    (hcan : can_place st day p.pod p.ops_group s c m len = true) :
    RunInv holidays (placeAndRecord st day p s c m len) ∧
    (placeAndRecord st day p s c m len).bookings =
      st.bookings ++ [mkBooking day p.pod s c m len] ∧
    (placeAndRecord st day p s c m len).scheduleRows =
      st.scheduleRows ++ [mkSRow day p s c m len] ∧
    (placeAndRecord st day p s c m len).summaryRows = st.summaryRows ∧
    p.capacity ≤ 28 := by
  obtain ⟨hs1, hs2, hs3, hs4⟩ := can_place_iff.mp hcan
  have hgrp : OPS_GROUP p.pod = p.ops_group := ((pods_config_facts.1) p hp).1
  have hcap : p.capacity ≤ 28 := ((pods_config_facts.1) p hp).2.2
  have hfresh : ∀ b ∈ st.bookings, ¬ sameKey b (mkBooking day p.pod s c m len) = true :=
    fun b hb => booking_ok_not_sameKey (hInv.end_eq b hb) (hInv.len_pos b hb) hl (hs4 b hb)
  have hbookings : (placeAndRecord st day p s c m len).bookings =
      st.bookings ++ [mkBooking day p.pod s c m len] := by
    simp only [placeAndRecord, place]
    exact dictInsert_append hfresh
  have hrows : (placeAndRecord st day p s c m len).scheduleRows =
      st.scheduleRows ++ [mkSRow day p s c m len] := rfl
  have hstarts : (placeAndRecord st day p s c m len).opsStarts =
      st.opsStarts.insert (day, p.ops_group, s) := rfl
  have hends : (placeAndRecord st day p s c m len).opsEnds =
      st.opsEnds.insert (day, p.ops_group, s + len) := rfl
  have hsum : (placeAndRecord st day p s c m len).summaryRows = st.summaryRows := rfl
  refine ⟨?_, hbookings, hrows, hsum, hcap⟩
  constructor
  · -- link_start
    intro b hb
    rw [hbookings] at hb
    rw [hstarts]
    rcases List.mem_append.mp hb with hb | hb
    · exact List.mem_insert_iff.mpr (Or.inr (hInv.link_start b hb))
    · rcases List.mem_singleton.mp hb with rfl
      exact List.mem_insert_iff.mpr (Or.inl (by simp [mkBooking, hgrp]))
  · -- link_end
    intro b hb
    rw [hbookings] at hb
    rw [hends]
    rcases List.mem_append.mp hb with hb | hb
    · exact List.mem_insert_iff.mpr (Or.inr (hInv.link_end b hb))
    · rcases List.mem_singleton.mp hb with rfl
      exact List.mem_insert_iff.mpr (Or.inl (by simp [mkBooking, hgrp]))
  · -- end_eq
    intro b hb
    rw [hbookings] at hb
    rcases List.mem_append.mp hb with hb | hb
    · exact hInv.end_eq b hb
    · rcases List.mem_singleton.mp hb with rfl
      simp [mkBooking]
  · -- len_pos
    intro b hb
    rw [hbookings] at hb
    rcases List.mem_append.mp hb with hb | hb
    · exact hInv.len_pos b hb
    · rcases List.mem_singleton.mp hb with rfl
      simpa [mkBooking] using hl
  · -- sep
    rw [hbookings]
    refine List.pairwise_append.mpr ⟨hInv.sep, List.pairwise_singleton _ _, ?_⟩
    intro a ha b hb
    rcases List.mem_singleton.mp hb with rfl
    exact booking_ok_podSep (hInv.end_eq a ha) (hInv.len_pos a ha) hl (hs4 a ha)
  · -- ops
    rw [hbookings]
    refine List.pairwise_append.mpr ⟨hInv.ops, List.pairwise_singleton _ _, ?_⟩
    intro a ha b hb
    rcases List.mem_singleton.mp hb with rfl
    intro hd hg
    simp only [mkBooking] at hd hg ⊢
    rw [hgrp] at hg
    constructor
    · intro heq
      apply hs1
      have := hInv.link_start a ha
      rw [hd, hg, heq] at this
      exact this
    · intro heq
      apply hs2
      have := hInv.link_end a ha
      rw [hd, hg, heq] at this
      exact this
  · -- closing
    intro b hb
    rw [hbookings] at hb
    rcases List.mem_append.mp hb with hb | hb
    · exact hInv.closing b hb
    · rcases List.mem_singleton.mp hb with rfl
      simpa [mkBooking] using hs3
  · -- valid_day
    intro b hb
    rw [hbookings] at hb
    rcases List.mem_append.mp hb with hb | hb
    · exact hInv.valid_day b hb
    · rcases List.mem_singleton.mp hb with rfl
      exact ⟨hday, hhol⟩
  · -- grid
    intro b hb
    rw [hbookings] at hb
    rcases List.mem_append.mp hb with hb | hb
    · exact hInv.grid b hb
    · rcases List.mem_singleton.mp hb with rfl
      exact ⟨hg1, hg2⟩
  · -- rows_eq
    rw [hbookings, hrows, List.map_append, hInv.rows_eq]
    rfl

/-!  ## Pass-level bookkeeping -/

/-- Total pod capacity over a list of schedule rows. -/
def sumCaps (l : List SRow) : Nat := (l.map SRow.cap).sum

/-- How one segment of the allocation loop extends the state: the
schedule rows grow by an appended block belonging to the current window
whose capacities account exactly for the growth of `total_capacity`, the
summary rows are untouched, and the booking dict only grows at the end. -/
def PassExtends (st st' : St) (c m : String) (tcIn tcOut : Nat) : Prop :=
  (∃ δ, st'.scheduleRows = st.scheduleRows ++ δ ∧
    (∀ r ∈ δ, r.course = c ∧ r.modAct = m) ∧ tcOut = tcIn + sumCaps δ) ∧
  st'.summaryRows = st.summaryRows ∧
  (∃ δb, st'.bookings = st.bookings ++ δb)

theorem passExtends_refl (st : St) (c m : String) (tc : Nat) :
    PassExtends st st c m tc tc :=
  ⟨⟨[], by simp, by simp, by simp [sumCaps]⟩, rfl, ⟨[], by simp⟩⟩

theorem passExtends_trans {s1 s2 s3 : St} {c m : String} {a b d : Nat}
    (h1 : PassExtends s1 s2 c m a b) (h2 : PassExtends s2 s3 c m b d) :
    PassExtends s1 s3 c m a d := by
  obtain ⟨⟨δ1, hr1, hk1, hs1⟩, hsum1, ⟨δb1, hb1⟩⟩ := h1
  obtain ⟨⟨δ2, hr2, hk2, hs2⟩, hsum2, ⟨δb2, hb2⟩⟩ := h2
  refine ⟨⟨δ1 ++ δ2, ?_, ?_, ?_⟩, hsum2.trans hsum1, ⟨δb1 ++ δb2, ?_⟩⟩
  · rw [hr2, hr1, List.append_assoc]
  · intro r hr
    rcases List.mem_append.mp hr with hr | hr
    · exact hk1 r hr
    · exact hk2 r hr
  · simp only [sumCaps, List.map_append, List.sum_append] at *
    omega
  · rw [hb2, hb1, List.append_assoc]

/-- Changing only the summary rows preserves the run invariant. -/
theorem runInv_set_summary {holidays : List Nat} {st : St}
    (h : RunInv holidays st) (v : List SummaryRow) :
    RunInv holidays { st with summaryRows := v } :=
  ⟨h.link_start, h.link_end, h.end_eq, h.len_pos, h.sep, h.ops, h.closing,
   h.valid_day, h.grid, h.rows_eq⟩

/-- The pod ordering only permutes the inventory. -/
theorem mem_pods_sorted {st : St} {p : Pod} (h : p ∈ pods_sorted_for_slot st) :
    p ∈ PODS := by
  unfold pods_sorted_for_slot at h
  exact (List.mem_insertionSort (podLe st)).mp h

/-- Specification of the inner pod loop: either nothing could be placed,
or the first legal pod was placed, extending the state by one booking. -/
theorem tryPods_spec {holidays : List Nat} {st : St} {day s len : Nat}
    (c m : String) (hInv : RunInv holidays st)
    (hday : day % 7 < 5) (hhol : day ∉ holidays)
    (hg1 : START_MIN ≤ s) (hg2 : (s - START_MIN) % STEP_MIN = 0) (hl : 0 < len) :
    ∀ l : List Pod, (∀ p ∈ l, p ∈ PODS) →
      tryPods st day s c m len l = none ∨
      ∃ st' cap, tryPods st day s c m len l = some (st', cap) ∧
        RunInv holidays st' ∧ cap ≤ 28 ∧ PassExtends st st' c m 0 cap := by
  intro l
  induction l with
  | nil => intro _; exact Or.inl rfl
  | cons p ps ih =>
    intro hmem
    by_cases hc : can_place st day p.pod p.ops_group s c m len = true
    · right
      obtain ⟨hI, hb, hr, hsum, hcap⟩ :=
        inv_placeAndRecord hInv (hmem p (List.mem_cons_self p ps)) hday hhol hg1 hg2 hl hc
      refine ⟨placeAndRecord st day p s c m len, p.capacity, ?_, hI, hcap, ?_⟩
      · simp only [tryPods, if_pos hc]
      · exact ⟨⟨[mkSRow day p s c m len], hr, by simp [mkSRow], by simp [sumCaps, mkSRow]⟩,
          hsum, ⟨[mkBooking day p.pod s c m len], hb⟩⟩
    · have : tryPods st day s c m len (p :: ps) = tryPods st day s c m len ps := by
        simp only [tryPods, if_neg hc]
      rw [this]
      exact ih (fun q hq => hmem q (List.mem_cons_of_mem p hq))

theorem passExtends_shift {st st' : St} {c m : String} {cap tc : Nat}
    (h : PassExtends st st' c m 0 cap) : PassExtends st st' c m tc (tc + cap) := by
  obtain ⟨⟨δ, hr, hk, hs⟩, hsum, hb⟩ := h
  exact ⟨⟨δ, hr, hk, by omega⟩, hsum, hb⟩

/-- Specification of the Pass-1 start loop over one day: the invariant is
preserved, the state extends by rows of the current window accounting for
the capacity growth, and the total capacity never exceeds
`seats_required + 27` unless it already did. -/
theorem pass1Starts_spec {holidays : List Nat} {day len : Nat} {c m : String}
    (hday : day % 7 < 5) (hhol : day ∉ holidays) (hl : 0 < len) :
    ∀ (starts : List Nat),
      (∀ x ∈ starts, START_MIN ≤ x ∧ (x - START_MIN) % STEP_MIN = 0) →
      ∀ (st : St) (req target tc df sh : Nat), RunInv holidays st →
        RunInv holidays (pass1Starts st day c m len req target tc df sh starts).1 ∧
        PassExtends st (pass1Starts st day c m len req target tc df sh starts).1 c m tc
          (pass1Starts st day c m len req target tc df sh starts).2.1 ∧
        tc ≤ (pass1Starts st day c m len req target tc df sh starts).2.1 ∧
        (pass1Starts st day c m len req target tc df sh starts).2.1 ≤ max tc (req + 27) := by
  intro starts
  induction starts with
  | nil =>
    intro _ st req target tc df sh hInv
    simp only [pass1Starts]
    exact ⟨hInv, passExtends_refl st c m tc, le_refl tc, le_max_left tc (req + 27)⟩
  | cons s rest ih =>
    intro hmem st req target tc df sh hInv
    by_cases hstop : req ≤ tc ∨ target ≤ df
    · simp only [pass1Starts, if_pos hstop]
      exact ⟨hInv, passExtends_refl st c m tc, le_refl tc, le_max_left tc (req + 27)⟩
    · have hs := hmem s (List.mem_cons_self s rest)
      have hrest := fun x hx => hmem x (List.mem_cons_of_mem s hx)
      rcases tryPods_spec c m hInv hday hhol hs.1 hs.2 hl (pods_sorted_for_slot st)
          (fun p hp => mem_pods_sorted hp) with hnone | ⟨st', cap, heq, hI', hcap, hPE⟩
      · simp only [pass1Starts, if_neg hstop, hnone]
        exact ih hrest st req target tc df sh hInv
      · simp only [pass1Starts, if_neg hstop, heq]
        obtain ⟨hI2, hPE2, hle2, hmax2⟩ := ih hrest st' req target (tc + cap) (df + cap) (sh + 1) hI'
        push_neg at hstop
        refine ⟨hI2, passExtends_trans (passExtends_shift hPE) hPE2, by omega, by omega⟩

/-- Specification of the Pass-2 start loop over one day. -/
theorem pass2Starts_spec {holidays : List Nat} {day len : Nat} {c m : String}
    (hday : day % 7 < 5) (hhol : day ∉ holidays) (hl : 0 < len) :
    ∀ (starts : List Nat),
      (∀ x ∈ starts, START_MIN ≤ x ∧ (x - START_MIN) % STEP_MIN = 0) →
      ∀ (st : St) (req tc sh : Nat), RunInv holidays st →
        RunInv holidays (pass2Starts st day c m len req tc sh starts).1 ∧
        PassExtends st (pass2Starts st day c m len req tc sh starts).1 c m tc
          (pass2Starts st day c m len req tc sh starts).2.1 ∧
        tc ≤ (pass2Starts st day c m len req tc sh starts).2.1 ∧
        (pass2Starts st day c m len req tc sh starts).2.1 ≤ max tc (req + 27) := by
  intro starts
  induction starts with
  | nil =>
    intro _ st req tc sh hInv
    simp only [pass2Starts]
    exact ⟨hInv, passExtends_refl st c m tc, le_refl tc, le_max_left tc (req + 27)⟩
  | cons s rest ih =>
    intro hmem st req tc sh hInv
    by_cases hstop : req ≤ tc
    · simp only [pass2Starts, if_pos hstop]
      exact ⟨hInv, passExtends_refl st c m tc, le_refl tc, le_max_left tc (req + 27)⟩
    · have hs := hmem s (List.mem_cons_self s rest)
      have hrest := fun x hx => hmem x (List.mem_cons_of_mem s hx)
      rcases tryPods_spec c m hInv hday hhol hs.1 hs.2 hl (pods_sorted_for_slot st)
          (fun p hp => mem_pods_sorted hp) with hnone | ⟨st', cap, heq, hI', hcap, hPE⟩
      · simp only [pass2Starts, if_neg hstop, hnone]
        exact ih hrest st req tc sh hInv
      · simp only [pass2Starts, if_neg hstop, heq]
        obtain ⟨hI2, hPE2, hle2, hmax2⟩ := ih hrest st' req (tc + cap) (sh + 1) hI'
        refine ⟨hI2, passExtends_trans (passExtends_shift hPE) hPE2, by omega, by omega⟩

/-- Specification of the Pass-1 day loop. -/
theorem pass1Days_spec {holidays : List Nat} {c m : String} {len : Nat}
    (hl : 0 < len) :
    ∀ (days : List Nat), (∀ d ∈ days, d % 7 < 5 ∧ d ∉ holidays) →
      ∀ (st : St) (req T i tc sh : Nat), RunInv holidays st →
        RunInv holidays (pass1Days st c m len req T i tc sh days).1 ∧
        PassExtends st (pass1Days st c m len req T i tc sh days).1 c m tc
          (pass1Days st c m len req T i tc sh days).2.1 ∧
        tc ≤ (pass1Days st c m len req T i tc sh days).2.1 ∧
        (pass1Days st c m len req T i tc sh days).2.1 ≤ max tc (req + 27) := by
  intro days
  induction days with
  | nil =>
    intro _ st req T i tc sh hInv
    simp only [pass1Days]
    exact ⟨hInv, passExtends_refl st c m tc, le_refl tc, le_max_left tc (req + 27)⟩
  | cons d ds ih =>
    intro hmem st req T i tc sh hInv
    by_cases hstop : req ≤ tc
    · simp only [pass1Days, if_pos hstop]
      exact ⟨hInv, passExtends_refl st c m tc, le_refl tc, le_max_left tc (req + 27)⟩
    · have hd := hmem d (List.mem_cons_self d ds)
      have hds := fun x hx => hmem x (List.mem_cons_of_mem d hx)
      have hunfold : pass1Days st c m len req T i tc sh (d :: ds) =
          pass1Days (pass1Starts st d c m len req (daily_target (i + 1) T req) tc 0 sh
              (candidate_starts_for_date d len)).1
            c m len req T (i + 1)
            (pass1Starts st d c m len req (daily_target (i + 1) T req) tc 0 sh
              (candidate_starts_for_date d len)).2.1
            (pass1Starts st d c m len req (daily_target (i + 1) T req) tc 0 sh
              (candidate_starts_for_date d len)).2.2.2 ds := by
        simp only [pass1Days, if_neg hstop]
      rw [hunfold]
      obtain ⟨hI1, hPE1, hle1, hmax1⟩ :=
        pass1Starts_spec hd.1 hd.2 hl (candidate_starts_for_date d len)
          (fun x hx => mem_candidate_starts hx) st req
          (daily_target (i + 1) T req) tc 0 sh hInv
      obtain ⟨hI2, hPE2, hle2, hmax2⟩ := ih hds _ req T (i + 1) _ _ hI1
      exact ⟨hI2, passExtends_trans hPE1 hPE2, by omega, by omega⟩

/-- Specification of the Pass-2 day loop. -/
theorem pass2Days_spec {holidays : List Nat} {c m : String} {len : Nat}
    (hl : 0 < len) :
    ∀ (days : List Nat), (∀ d ∈ days, d % 7 < 5 ∧ d ∉ holidays) →
      ∀ (st : St) (req tc sh : Nat), RunInv holidays st →
        RunInv holidays (pass2Days st c m len req tc sh days).1 ∧
        PassExtends st (pass2Days st c m len req tc sh days).1 c m tc
          (pass2Days st c m len req tc sh days).2.1 ∧
        tc ≤ (pass2Days st c m len req tc sh days).2.1 ∧
        (pass2Days st c m len req tc sh days).2.1 ≤ max tc (req + 27) := by
  intro days
  induction days with
  | nil =>
    intro _ st req tc sh hInv
    simp only [pass2Days]
    exact ⟨hInv, passExtends_refl st c m tc, le_refl tc, le_max_left tc (req + 27)⟩
  | cons d ds ih =>
    intro hmem st req tc sh hInv
    by_cases hstop : req ≤ tc
    · simp only [pass2Days, if_pos hstop]
      exact ⟨hInv, passExtends_refl st c m tc, le_refl tc, le_max_left tc (req + 27)⟩
    · have hd := hmem d (List.mem_cons_self d ds)
      have hds := fun x hx => hmem x (List.mem_cons_of_mem d hx)
      have hunfold : pass2Days st c m len req tc sh (d :: ds) =
          pass2Days (pass2Starts st d c m len req tc sh
              (candidate_starts_for_date d len)).1
            c m len req
            (pass2Starts st d c m len req tc sh (candidate_starts_for_date d len)).2.1
            (pass2Starts st d c m len req tc sh (candidate_starts_for_date d len)).2.2 ds := by
        simp only [pass2Days, if_neg hstop]
      rw [hunfold]
      obtain ⟨hI1, hPE1, hle1, hmax1⟩ :=
        pass2Starts_spec hd.1 hd.2 hl (candidate_starts_for_date d len)
          (fun x hx => mem_candidate_starts hx) st req tc sh hInv
      obtain ⟨hI2, hPE2, hle2, hmax2⟩ := ih hds _ req _ _ hI1
      exact ⟨hI2, passExtends_trans hPE1 hPE2, by omega, by omega⟩

theorem sumCaps_append (a b : List SRow) : sumCaps (a ++ b) = sumCaps a + sumCaps b := by
  simp [sumCaps]


/-- Specification of the two-pass stage: invariant preserved, rows extend
by the window's rows accounting for the returned capacity, and the
returned capacity is at most `seats_required + 27`. -/
theorem runPasses_spec {holidays : List Nat} (c m : String) {len : Nat}
    (hlen : 0 < len) (days : List Nat)
    (hdays : ∀ d ∈ days, d % 7 < 5 ∧ d ∉ holidays)
    (st : St) (req : Nat) (hInv : RunInv holidays st) :
    RunInv holidays (runPasses c m len req st days).1 ∧
    PassExtends st (runPasses c m len req st days).1 c m 0
      (runPasses c m len req st days).2.1 ∧
    (runPasses c m len req st days).2.1 ≤ req + 27 := by
  obtain ⟨hI1, hPE1, hle1, hmax1⟩ :=
    pass1Days_spec hlen days hdays st req (totalWeightOf days.length) 0 0 0 hInv
  by_cases h : (pass1Days st c m len req (totalWeightOf days.length) 0 0 0 days).2.1 < req
  · simp only [runPasses, if_pos h]
    obtain ⟨hI2, hPE2, hle2, hmax2⟩ :=
      pass2Days_spec hlen days.reverse (fun d hd => hdays d (List.mem_reverse.mp hd))
        _ req _ _ hI1
    exact ⟨hI2, passExtends_trans hPE1 hPE2, by omega⟩
  · simp only [runPasses, if_neg h]
    exact ⟨hI1, hPE1, by omega⟩

/-- Specification of a successfully processed window: the invariant is
preserved, the window had at least one business day, the appended rows all
belong to the window and their capacities sum to between the seat
requirement and the requirement plus 27, the booking dict only grows, and
exactly one summary row is appended. -/
theorem processWindow_ok_spec {students : List (String × Nat)} {holidays : List Nat}
    {st : St} {w : Window} {st' : St} (hInv : RunInv holidays st)
    (hok : processWindow students holidays st w = .ok st') :
    RunInv holidays st' ∧
    business_days_inclusive w.openD w.closeD holidays ≠ [] ∧
    (∃ δ, st'.scheduleRows = st.scheduleRows ++ δ ∧
      (∀ r ∈ δ, r.course = w.course ∧ r.modAct = w.modAct) ∧
      seats_required ((students.lookup w.course).getD DEFAULT_STUDENTS_OTHER) ≤ sumCaps δ ∧
      sumCaps δ ≤ seats_required ((students.lookup w.course).getD DEFAULT_STUDENTS_OTHER) + 27) ∧
    (∃ δb, st'.bookings = st.bookings ++ δb) ∧
    (∃ srow : SummaryRow, st'.summaryRows = st.summaryRows ++ [srow]) := by
  simp only [processWindow] at hok
  split at hok
  · exact absurd hok (by simp)
  · rename_i hne
    have hdays : ∀ d ∈ business_days_inclusive w.openD w.closeD holidays,
        d % 7 < 5 ∧ d ∉ holidays := fun d hd => (mem_business_days hd).1
    obtain ⟨hI, hPE, hbound⟩ :=
      runPasses_spec w.course w.modAct (get_show_length_pos w.course)
        (business_days_inclusive w.openD w.closeD holidays) hdays st
        (seats_required ((students.lookup w.course).getD DEFAULT_STUDENTS_OTHER)) hInv
    split at hok
    · exact absurd hok (by simp)
    · rename_i hfull
      rw [not_lt] at hfull
      obtain rfl : _ = st' := Except.ok.inj hok
      obtain ⟨⟨δ, hr, hk, hs⟩, hsum, ⟨δb, hb⟩⟩ := hPE
      refine ⟨runInv_set_summary hI _, by simpa using hne, ⟨δ, ?_, hk, ?_, ?_⟩,
        ⟨δb, hb⟩, ⟨_, by rw [← hsum]⟩⟩
      · exact hr
      · omega
      · omega

/-- Specification of a failed window: either the configuration error with
an empty business-day list, or the capacity error carrying the window
identity, the placed capacity, and the (unmet) seat requirement. -/
theorem processWindow_error_spec {students : List (String × Nat)}
    {holidays : List Nat} {st : St} {w : Window} {e : SchedError}
    (he : processWindow students holidays st w = .error e) :
    (e = .configError w.course w.modAct ∧
      business_days_inclusive w.openD w.closeD holidays = []) ∨
    (∃ tc, e = .capacityError w.course w.modAct tc
        (seats_required ((students.lookup w.course).getD DEFAULT_STUDENTS_OTHER)) ∧
      tc < seats_required ((students.lookup w.course).getD DEFAULT_STUDENTS_OTHER)) := by
  simp only [processWindow] at he
  split at he
  · rename_i hemp
    simp only [Except.error.injEq] at he
    exact Or.inl ⟨he.symm, by simpa [List.isEmpty_iff] using hemp⟩
  · split at he
    · rename_i hlt
      simp only [Except.error.injEq] at he
      exact Or.inr ⟨_, he.symm, hlt⟩
    · exact absurd he (by simp)

/-- The schedule-row filter for one `(course, modAct)` pair. -/
def rowsOfPair (c m : String) (l : List SRow) : List SRow :=
  l.filter (fun r => decide (r.course = c) && decide (r.modAct = m))

theorem rowsOfPair_append (c m : String) (a b : List SRow) :
    rowsOfPair c m (a ++ b) = rowsOfPair c m a ++ rowsOfPair c m b := by
  simp [rowsOfPair]

theorem rowsOfPair_eq_self {c m : String} {l : List SRow}
    (h : ∀ r ∈ l, r.course = c ∧ r.modAct = m) : rowsOfPair c m l = l :=
  List.filter_eq_self.mpr (fun r hr => by
    obtain ⟨h1, h2⟩ := h r hr
    simp [h1, h2])

theorem rowsOfPair_eq_nil {c m : String} {l : List SRow}
    (h : ∀ r ∈ l, ¬(r.course = c ∧ r.modAct = m)) : rowsOfPair c m l = [] :=
  List.filter_eq_nil_iff.mpr (fun r hr => by
    have := h r hr
    simp only [Bool.and_eq_true, decide_eq_true_eq]
    tauto)

/-- Specification of a successful main loop over a window list: the
invariant is preserved, the booking dict and the schedule rows only grow
(new rows carrying keys of the processed windows), every processed window
had a business day, and — when the window keys are distinct and disjoint
from the pre-existing rows — each window's rows sum to a capacity between
its seat requirement and the requirement plus 27. -/
theorem processWindows_ok_spec {students : List (String × Nat)} {holidays : List Nat} :
    ∀ (ws : List Window) (st st' : St), RunInv holidays st →
      processWindows students holidays st ws = .ok st' →
      RunInv holidays st' ∧
      (∃ δb, st'.bookings = st.bookings ++ δb) ∧
      (∃ δr, st'.scheduleRows = st.scheduleRows ++ δr ∧
        ∀ r ∈ δr, (r.course, r.modAct) ∈ ws.map winKey) ∧
      (∀ w ∈ ws, business_days_inclusive w.openD w.closeD holidays ≠ []) ∧
      ((ws.map winKey).Nodup →
        (∀ r ∈ st.scheduleRows, (r.course, r.modAct) ∉ ws.map winKey) →
        ∀ w ∈ ws,
          seats_required ((students.lookup w.course).getD DEFAULT_STUDENTS_OTHER) ≤
            sumCaps (rowsOfPair w.course w.modAct st'.scheduleRows) ∧
          sumCaps (rowsOfPair w.course w.modAct st'.scheduleRows) ≤
            seats_required ((students.lookup w.course).getD DEFAULT_STUDENTS_OTHER) + 27) := by
  intro ws
  induction ws with
  | nil =>
    intro st st' hInv hok
    simp only [processWindows] at hok
    obtain rfl : st = st' := Except.ok.inj hok
    refine ⟨hInv, ⟨[], by simp⟩, ⟨[], by simp⟩, by simp, ?_⟩
    intro _ _ w hw
    exact absurd hw (List.not_mem_nil w)
  | cons w ws ih =>
    intro st st' hInv hok
    simp only [processWindows] at hok
    split at hok
    · exact absurd hok (by simp)
    · rename_i stA heqA
      obtain ⟨hIA, hdaysw, ⟨δw, hrw, hkw, hlo, hhi⟩, ⟨δbw, hbw⟩, -⟩ :=
        processWindow_ok_spec hInv heqA
      obtain ⟨hI', ⟨δb2, hb2⟩, ⟨δr2, hr2, hk2⟩, hdays2, hC3⟩ := ih stA st' hIA hok
      have hkeyw : ∀ r ∈ δw, (r.course, r.modAct) = winKey w := by
        intro r hr
        obtain ⟨hc, hm⟩ := hkw r hr
        simp [winKey, hc, hm]
      refine ⟨hI', ⟨δbw ++ δb2, by rw [hb2, hbw, List.append_assoc]⟩,
        ⟨δw ++ δr2, by rw [hr2, hrw, List.append_assoc], ?_⟩, ?_, ?_⟩
      · intro r hr
        simp only [List.map_cons]
        rcases List.mem_append.mp hr with hr | hr
        · rw [hkeyw r hr]
          exact List.mem_cons_self _ _
        · exact List.mem_cons_of_mem _ (hk2 r hr)
      · intro w' hw'
        rcases List.mem_cons.mp hw' with rfl | hw'
        · exact hdaysw
        · exact hdays2 w' hw'
      · intro hnd hdisj w' hw'
        simp only [List.map_cons, List.nodup_cons] at hnd
        obtain ⟨hwnotin, hnd2⟩ := hnd
        have hdisj2 : ∀ r ∈ stA.scheduleRows, (r.course, r.modAct) ∉ List.map winKey ws := by
          intro r hr
          rw [hrw] at hr
          rcases List.mem_append.mp hr with hr | hr
          · intro hmem
            exact hdisj r hr (by simp only [List.map_cons]; exact List.mem_cons_of_mem _ hmem)
          · rw [hkeyw r hr]
            exact hwnotin
        rcases List.mem_cons.mp hw' with rfl | hw'
        · have hrows : st'.scheduleRows = (st.scheduleRows ++ δw) ++ δr2 := by
            rw [hr2, hrw]
          have h1 : rowsOfPair w'.course w'.modAct st.scheduleRows = [] := by
            apply rowsOfPair_eq_nil
            intro r hr ⟨hc, hm⟩
            apply hdisj r hr
            simp only [List.map_cons]
            have : (r.course, r.modAct) = winKey w' := by simp [winKey, hc, hm]
            rw [this]
            exact List.mem_cons_self _ _
          have h2 : rowsOfPair w'.course w'.modAct δw = δw := rowsOfPair_eq_self hkw
          have h3 : rowsOfPair w'.course w'.modAct δr2 = [] := by
            apply rowsOfPair_eq_nil
            intro r hr ⟨hc, hm⟩
            apply hwnotin
            have : (r.course, r.modAct) = winKey w' := by simp [winKey, hc, hm]
            rw [← this]
            exact hk2 r hr
          rw [hrows, rowsOfPair_append, rowsOfPair_append, h1, h2, h3]
          simpa using ⟨hlo, hhi⟩
        · exact hC3 hnd2 hdisj2 w' hw'

/-- Specification of a failed main loop: the error names one of the
windows; a configuration error means that window has no business days,
and a capacity error carries that window's identity, placed capacity, and
unmet seat requirement. -/
theorem processWindows_error_spec {students : List (String × Nat)} {holidays : List Nat} :
    ∀ (ws : List Window) (st : St) (e : SchedError),
      processWindows students holidays st ws = .error e →
      ∃ w ∈ ws,
        ((e = .configError w.course w.modAct ∧
          business_days_inclusive w.openD w.closeD holidays = []) ∨
         (∃ tc, e = .capacityError w.course w.modAct tc
            (seats_required ((students.lookup w.course).getD DEFAULT_STUDENTS_OTHER)) ∧
          tc < seats_required ((students.lookup w.course).getD DEFAULT_STUDENTS_OTHER))) := by
  intro ws
  induction ws with
  | nil =>
    intro st e hok
    simp only [processWindows] at hok
    exact absurd hok (by simp)
  | cons w ws ih =>
    intro st e hok
    simp only [processWindows] at hok
    split at hok
    · rename_i e' heq
      obtain rfl : e' = e := Except.error.inj hok
      exact ⟨w, List.mem_cons_self _ _, processWindow_error_spec heq⟩
    · rename_i stA heqA
      obtain ⟨w', hw', hspec⟩ := ih stA e hok
      exact ⟨w', List.mem_cons_of_mem _ hw', hspec⟩

/-- Unpack a successful `schedule` run into its final state. -/
theorem schedule_ok_elim {students : List (String × Nat)} {data : List Row}
    {holidays : List Nat} {rows : List SRow} {summary : List SummaryRow}
    (h : schedule students data holidays = .ok (rows, summary)) :
    ∃ st : St, processWindows students holidays initSt (buildWindows data) = .ok st ∧
      rows = List.insertionSort rowLe st.scheduleRows ∧
      summary = List.insertionSort summaryLe st.summaryRows := by
  unfold schedule at h
  split at h
  · exact absurd h (by simp)
  · rename_i st heq
    obtain ⟨h1, h2⟩ := Prod.mk.injEq .. ▸ Except.ok.inj h
    exact ⟨st, heq, h1.symm, h2.symm⟩

/-- The window keys produced by `buildWindows` are, up to permutation,
the distinct row keys of the input. -/
theorem buildWindows_map_key_perm (data : List Row) :
    ((buildWindows data).map winKey).Perm ((data.map rowKey).dedup) := by
  unfold buildWindows
  refine ((List.perm_insertionSort winLe _).map winKey).trans ?_
  rw [List.map_map]
  have : ∀ k ∈ List.insertionSort keyLe ((data.map rowKey).dedup),
      (winKey ∘ fun k => Window.mk k.1 k.2
        (listMin ((rowsFor data k).map Row.openD))
        (listMax ((rowsFor data k).map Row.closeD))) k = id k := by
    intro k _
    simp [winKey]
  rw [List.map_congr_left this, List.map_id]
  exact List.perm_insertionSort keyLe _

/-- The windows carry pairwise-distinct `(Course, Mod/Act)` keys. -/
theorem buildWindows_keys_nodup (data : List Row) :
    ((buildWindows data).map winKey).Nodup :=
  ((buildWindows_map_key_perm data).nodup_iff).mpr (List.nodup_dedup _)

/-- The final state of a successful run: it satisfies the run invariant,
the output rows are a sorted copy of its schedule rows, every window had a
business day, and every window's capacity lies in the required band. -/
theorem schedule_ok_state {students : List (String × Nat)} {data : List Row}
    {holidays : List Nat} {rows : List SRow} {summary : List SummaryRow}
    (h : schedule students data holidays = .ok (rows, summary)) :
    ∃ st : St, RunInv holidays st ∧
      rows = List.insertionSort rowLe st.scheduleRows ∧
      (∀ w ∈ buildWindows data,
        business_days_inclusive w.openD w.closeD holidays ≠ []) ∧
      (∀ w ∈ buildWindows data,
        seats_required ((students.lookup w.course).getD DEFAULT_STUDENTS_OTHER) ≤
          sumCaps (rowsOfPair w.course w.modAct st.scheduleRows) ∧
        sumCaps (rowsOfPair w.course w.modAct st.scheduleRows) ≤
          seats_required ((students.lookup w.course).getD DEFAULT_STUDENTS_OTHER) + 27) := by
  obtain ⟨st, hpw, hrows, hsum⟩ := schedule_ok_elim h
  obtain ⟨hInv, -, -, hdays, hC3⟩ :=
    processWindows_ok_spec (buildWindows data) initSt st (inv_initSt holidays) hpw
  exact ⟨st, hInv, hrows, hdays,
    hC3 (buildWindows_keys_nodup data) (by simp [initSt])⟩

/-- Membership transfer from the sorted output to the final state rows. -/
theorem mem_of_mem_sorted {st : St} {rows : List SRow} {r : SRow}
    (hrows : rows = List.insertionSort rowLe st.scheduleRows) (hr : r ∈ rows) :
    r ∈ st.scheduleRows := by
  rw [hrows] at hr
  exact (List.mem_insertionSort rowLe).mp hr

/-- A row of the final state records a booking of the final state. -/
theorem row_booking_mem {holidays : List Nat} {st : St} (hInv : RunInv holidays st)
    {r : SRow} (hr : r ∈ st.scheduleRows) : rowToBooking r ∈ st.bookings := by
  rw [hInv.rows_eq]
  exact List.mem_map_of_mem rowToBooking hr

/-- Pairwise transfer from the final state rows to the sorted output. -/
theorem pairwise_output {st : St} {rows : List SRow} {R : SRow → SRow → Prop}
    (hrows : rows = List.insertionSort rowLe st.scheduleRows)
    (hsymm : ∀ {x y : SRow}, R x y → R y x)
    (hpw : st.scheduleRows.Pairwise R) : rows.Pairwise R := by
  rw [hrows]
  exact ((List.perm_insertionSort rowLe st.scheduleRows).pairwise_iff
    fun h => hsymm h).mpr hpw

/-- `podSep` of the recorded bookings, read back on the rows. -/
theorem podSep_imp_claim {a b : SRow}
    (h : podSep (rowToBooking a) (rowToBooking b)) :
    a.day = b.day → a.pod = b.pod →
      ((a.endMin ≤ b.start ∨ b.endMin ≤ a.start) ∧
       (¬(a.course = b.course ∧ a.modAct = b.modAct) →
         (a.endMin + BREAK_LEN ≤ b.start ∨ b.endMin + BREAK_LEN ≤ a.start))) := by
  intro hd hp
  simp only [podSep, rowToBooking] at h
  have h' := h hd hp
  by_cases hsame : a.course = b.course ∧ a.modAct = b.modAct
  · rw [if_pos hsame] at h'
    exact ⟨h', fun hne => absurd hsame hne⟩
  · rw [if_neg hsame] at h'
    exact ⟨by omega, fun _ => h'⟩

/-- C1: on a successful run, any two output rows in the same pod on the
same day never overlap, and when they record different (course, activity)
pairs they are separated by at least `BREAK_LEN` (10 minutes) on the
relevant side; same-activity rows may abut but never overlap. -/
theorem C1_same_pod_day_separation (students : List (String × Nat))
    (data : List Row) (holidays : List Nat) (rows : List SRow)
    (summary : List SummaryRow)
    (h : schedule students data holidays = .ok (rows, summary)) :
    rows.Pairwise (fun a b => a.day = b.day → a.pod = b.pod →
      ((a.endMin ≤ b.start ∨ b.endMin ≤ a.start) ∧
       (¬(a.course = b.course ∧ a.modAct = b.modAct) →
         (a.endMin + BREAK_LEN ≤ b.start ∨ b.endMin + BREAK_LEN ≤ a.start)))) := by
  obtain ⟨st, hInv, hrows, -, -⟩ := schedule_ok_state h
  have hsep : st.scheduleRows.Pairwise
      (fun a b => podSep (rowToBooking a) (rowToBooking b)) := by
    have hs := hInv.sep
    rw [hInv.rows_eq] at hs
    exact List.pairwise_map.mp hs
  refine pairwise_output hrows ?_ (hsep.imp (fun hab => podSep_imp_claim hab))
  intro x y hR hd hp
  obtain ⟨h1, h2⟩ := hR hd.symm hp.symm
  refine ⟨h1.symm, fun hne => ?_⟩
  exact (h2 (fun hc => hne ⟨hc.1.symm, hc.2.symm⟩)).symm

def Wstudents : List (String × Nat) := [("Scm 1", 5)]

def Wdata : List Row := [⟨"Scm 1", "M1", 0, 0⟩]

def WrowOut : SRow := ⟨"Scm 1", "M1", 0, 540, 560, "CRTVC 5", 28, 20⟩

def WsumOut : SummaryRow := ⟨"Scm 1", "M1", 5, 6, 28, 1, 20, 0, 0⟩

set_option maxRecDepth 8000 in
theorem C1_same_pod_day_separation_witness :
    schedule Wstudents Wdata [] = .ok ([WrowOut], [WsumOut]) ∧
    [WrowOut].Pairwise (fun a b => a.day = b.day → a.pod = b.pod →
      ((a.endMin ≤ b.start ∨ b.endMin ≤ a.start) ∧
       (¬(a.course = b.course ∧ a.modAct = b.modAct) →
         (a.endMin + BREAK_LEN ≤ b.start ∨ b.endMin + BREAK_LEN ≤ a.start)))) :=
  ⟨by rfl, C1_same_pod_day_separation Wstudents Wdata [] [WrowOut] [WsumOut] (by rfl)⟩

/-- C2: on a successful run, any two output rows on the same day whose
pods share an ops-group tag have distinct start offsets and distinct end
offsets. -/
theorem C2_ops_group_distinct_offsets (students : List (String × Nat))
    (data : List Row) (holidays : List Nat) (rows : List SRow)
    (summary : List SummaryRow)
    (h : schedule students data holidays = .ok (rows, summary)) :
    rows.Pairwise (fun a b => a.day = b.day → OPS_GROUP a.pod = OPS_GROUP b.pod →
      a.start ≠ b.start ∧ a.endMin ≠ b.endMin) := by
  obtain ⟨st, hInv, hrows, -, -⟩ := schedule_ok_state h
  have hops : st.scheduleRows.Pairwise
      (fun a b => opsSep (rowToBooking a) (rowToBooking b)) := by
    have hs := hInv.ops
    rw [hInv.rows_eq] at hs
    exact List.pairwise_map.mp hs
  refine pairwise_output hrows ?_ (hops.imp (fun hab => hab))
  intro x y hR hd hg
  obtain ⟨h1, h2⟩ := hR hd.symm hg.symm
  exact ⟨h1.symm, h2.symm⟩

set_option maxRecDepth 8000 in
theorem C2_ops_group_distinct_offsets_witness :
    schedule Wstudents Wdata [] = .ok ([WrowOut], [WsumOut]) ∧
    [WrowOut].Pairwise (fun a b => a.day = b.day →
      OPS_GROUP a.pod = OPS_GROUP b.pod →
      a.start ≠ b.start ∧ a.endMin ≠ b.endMin) :=
  ⟨by rfl, C2_ops_group_distinct_offsets Wstudents Wdata [] [WrowOut] [WsumOut] (by rfl)⟩

/-- C4: on a successful run, every output row ends no later than the
closing offset of its weekday (early on Fridays) and falls on a Monday to
Friday day that is not a holiday. -/
theorem C4_hours_and_calendar (students : List (String × Nat))
    (data : List Row) (holidays : List Nat) (rows : List SRow)
    (summary : List SummaryRow)
    (h : schedule students data holidays = .ok (rows, summary)) :
    ∀ r ∈ rows, r.endMin ≤ get_end_hour_min r.day ∧
      r.day % 7 < 5 ∧ r.day ∉ holidays := by
  obtain ⟨st, hInv, hrows, -, -⟩ := schedule_ok_state h
  intro r hr
  have hb := row_booking_mem hInv (mem_of_mem_sorted hrows hr)
  exact ⟨hInv.closing _ hb, hInv.valid_day _ hb⟩

set_option maxRecDepth 8000 in
theorem C4_hours_and_calendar_witness :
    schedule Wstudents Wdata [] = .ok ([WrowOut], [WsumOut]) ∧
    (WrowOut.endMin ≤ get_end_hour_min WrowOut.day ∧
      WrowOut.day % 7 < 5 ∧ WrowOut.day ∉ ([] : List Nat)) :=
  ⟨by rfl, C4_hours_and_calendar Wstudents Wdata [] [WrowOut] [WsumOut] (by rfl)
    WrowOut (List.mem_singleton.mpr rfl)⟩

/-- C10: on a successful run, every output row starts at or after the
opening offset (09:00 = 540 minutes) and lies on the 5-minute grid. -/
theorem C10_grid_alignment (students : List (String × Nat))
    (data : List Row) (holidays : List Nat) (rows : List SRow)
    (summary : List SummaryRow)
    (h : schedule students data holidays = .ok (rows, summary)) :
    ∀ r ∈ rows, START_MIN ≤ r.start ∧ (r.start - START_MIN) % STEP_MIN = 0 := by
  obtain ⟨st, hInv, hrows, -, -⟩ := schedule_ok_state h
  intro r hr
  exact hInv.grid _ (row_booking_mem hInv (mem_of_mem_sorted hrows hr))

set_option maxRecDepth 8000 in
theorem C10_grid_alignment_witness :
    schedule Wstudents Wdata [] = .ok ([WrowOut], [WsumOut]) ∧
    (START_MIN ≤ WrowOut.start ∧ (WrowOut.start - START_MIN) % STEP_MIN = 0) :=
  ⟨by rfl, C10_grid_alignment Wstudents Wdata [] [WrowOut] [WsumOut] (by rfl)
    WrowOut (List.mem_singleton.mpr rfl)⟩

/-- The capacity of the largest pod in the inventory. -/
def maxPodCapacity : Nat := (PODS.map Pod.capacity).foldr Nat.max 0

/-- C3: on a successful run, for every demand window the pod capacities of
its output rows sum to at least the window's seat requirement
(`⌈students × 1.1⌉`, with the configured default student count for courses
absent from the mapping) and to at most the requirement plus the largest
pod capacity. -/
theorem C3_capacity_bounds (students : List (String × Nat))
    (data : List Row) (holidays : List Nat) (rows : List SRow)
    (summary : List SummaryRow)
    (h : schedule students data holidays = .ok (rows, summary)) :
    ∀ w ∈ buildWindows data,
      seats_required ((students.lookup w.course).getD DEFAULT_STUDENTS_OTHER) ≤
        sumCaps (rowsOfPair w.course w.modAct rows) ∧
      sumCaps (rowsOfPair w.course w.modAct rows) ≤
        seats_required ((students.lookup w.course).getD DEFAULT_STUDENTS_OTHER) +
          maxPodCapacity := by
  obtain ⟨st, hInv, hrows, -, hC3⟩ := schedule_ok_state h
  intro w hw
  have hperm : rows.Perm st.scheduleRows := by
    rw [hrows]
    exact List.perm_insertionSort rowLe st.scheduleRows
  have hsum_eq : sumCaps (rowsOfPair w.course w.modAct rows) =
      sumCaps (rowsOfPair w.course w.modAct st.scheduleRows) := by
    unfold sumCaps rowsOfPair
    exact ((hperm.filter _).map SRow.cap).sum_eq
  have hmax : maxPodCapacity = 28 := by decide
  obtain ⟨hlo, hhi⟩ := hC3 w hw
  rw [hsum_eq, hmax]
  omega

def WwinOut : Window := ⟨"Scm 1", "M1", 0, 0⟩

set_option maxRecDepth 8000 in
theorem C3_capacity_bounds_witness :
    schedule Wstudents Wdata [] = .ok ([WrowOut], [WsumOut]) ∧
    (seats_required ((Wstudents.lookup WwinOut.course).getD DEFAULT_STUDENTS_OTHER) ≤
      sumCaps (rowsOfPair WwinOut.course WwinOut.modAct [WrowOut]) ∧
     sumCaps (rowsOfPair WwinOut.course WwinOut.modAct [WrowOut]) ≤
      seats_required ((Wstudents.lookup WwinOut.course).getD DEFAULT_STUDENTS_OTHER) +
        maxPodCapacity) :=
  ⟨by rfl, C3_capacity_bounds Wstudents Wdata [] [WrowOut] [WsumOut] (by rfl)
    WwinOut (by decide)⟩

/-- C9: `schedule` is a pure function of its inputs — two runs on equal
students mappings, demand rows, and holiday lists produce equal booking
and summary outputs. -/
theorem C9_deterministic (s1 s2 : List (String × Nat)) (d1 d2 : List Row)
    (a1 a2 : List Nat) (hs : s1 = s2) (hd : d1 = d2) (ha : a1 = a2) :
    schedule s1 d1 a1 = schedule s2 d2 a2 := by
  subst hs hd ha
  rfl

theorem C9_deterministic_witness :
    schedule Wstudents Wdata [] = schedule Wstudents Wdata [] :=
  C9_deterministic Wstudents Wstudents Wdata Wdata [] [] rfl rfl rfl

/-- C5 (amended): a failing run aborts with one of the two errors and no
output; a configuration error names a window of the input whose range
holds zero business days; a capacity error names a window, the capacity it
placed, and its (unmet) seat requirement, so the shortfall is
`required − placed > 0`; and a successful run implies every window has at
least one business day. -/
theorem C5_error_characterization (students : List (String × Nat))
    (data : List Row) (holidays : List Nat) :
    (∀ e, schedule students data holidays = .error e →
      ∃ w ∈ buildWindows data,
        ((e = .configError w.course w.modAct ∧
          business_days_inclusive w.openD w.closeD holidays = []) ∨
         (∃ tc, e = .capacityError w.course w.modAct tc
            (seats_required ((students.lookup w.course).getD DEFAULT_STUDENTS_OTHER)) ∧
          tc < seats_required ((students.lookup w.course).getD DEFAULT_STUDENTS_OTHER)))) ∧
    (∀ out, schedule students data holidays = .ok out →
      ∀ w ∈ buildWindows data,
        business_days_inclusive w.openD w.closeD holidays ≠ []) := by
  constructor
  · intro e he
    unfold schedule at he
    split at he
    · rename_i e' heq
      obtain rfl : e' = e := Except.error.inj he
      exact processWindows_error_spec (buildWindows data) initSt _ heq
    · exact absurd he (by simp)
  · rintro ⟨rows, summary⟩ hok
    obtain ⟨st, -, -, hdays, -⟩ := schedule_ok_state hok
    exact hdays

set_option maxRecDepth 8000 in
theorem C5_error_characterization_witness :
    business_days_inclusive WwinOut.openD WwinOut.closeD [] ≠ [] :=
  (C5_error_characterization Wstudents Wdata []).2 ([WrowOut], [WsumOut])
    (by rfl) WwinOut (by decide)

def Xstudents : List (String × Nat) := [("Bio A", 100000)]

def Xdata : List Row := [⟨"Bio A", "M1", 4, 4⟩, ⟨"X", "Y", 5, 6⟩]

set_option maxRecDepth 1000000 in
/-- The claim's biconditional fails: window `("X", "Y")` of this input has
zero business days (its range covers only a weekend), yet `schedule` does
not fail with a configuration error — it aborts earlier with a capacity
error on window `("Bio A", "M1")`, a one-Friday window that cannot seat
the required 110001 (the binary64 ceiling of `100000 * 1.1`). -/
theorem C5_counterexample :
    business_days_inclusive 5 6 [] = [] ∧
    (⟨"X", "Y", 5, 6⟩ : Window) ∈ buildWindows Xdata ∧
    schedule Xstudents Xdata [] =
      .error (.capacityError "Bio A" "M1" 840 110001) :=
  ⟨by rfl, by decide, by rfl⟩

/-- C8: the booking ledger is append-only. A placement guarded by
`can_place` stores its booking at a `(day, pod, start)` key that is not
yet present, so the Python dict assignment appends a new entry and no
existing booking is overwritten, removed, or modified; and across the
processing of any later windows the bookings accumulated so far remain an
unchanged prefix of the ledger. -/
theorem C8_ledger_append_only :
    (∀ (holidays : List Nat) (st : St) (day : Nat) (pod grp : String)
       (s : Nat) (c m : String) (len : Nat),
      RunInv holidays st → 0 < len →
      can_place st day pod grp s c m len = true →
      (place st day pod grp s c m len).bookings =
        st.bookings ++ [mkBooking day pod s c m len]) ∧
    (∀ (students : List (String × Nat)) (holidays : List Nat)
       (ws : List Window) (st st' : St),
      RunInv holidays st →
      processWindows students holidays st ws = .ok st' →
      st.bookings <+: st'.bookings) := by
  constructor
  · intro holidays st day pod grp s c m len hInv hlen hcan
    obtain ⟨-, -, -, hs4⟩ := can_place_iff.mp hcan
    have hfresh : ∀ b ∈ st.bookings,
        ¬ sameKey b (mkBooking day pod s c m len) = true :=
      fun b hb => booking_ok_not_sameKey (hInv.end_eq b hb) (hInv.len_pos b hb)
        hlen (hs4 b hb)
    simp only [place]
    exact dictInsert_append hfresh
  · intro students holidays ws st st' hInv hok
    obtain ⟨-, ⟨δb, hb⟩, -, -, -⟩ := processWindows_ok_spec ws st st' hInv hok
    exact ⟨δb, hb.symm⟩

/-- The final internal state of the small example run. -/
def WstFinal : St :=
  ⟨[(0, "B", 540)], [(0, "B", 560)],
   [⟨0, "CRTVC 5", 540, "Scm 1", "M1", 560, 20⟩],
   [("CRTVC 1", 0), ("CRTVC 2", 0), ("CRTVC 3", 0), ("CRTVC 4", 0),
    ("CRTVC 5", 1), ("CRTVC 6", 0)],
   [WrowOut], [WsumOut]⟩

set_option maxRecDepth 8000 in
theorem C8_ledger_append_only_witness :
    (place initSt 0 "CRTVC 5" "B" 540 "Scm 1" "M1" 20).bookings =
      initSt.bookings ++ [mkBooking 0 "CRTVC 5" 540 "Scm 1" "M1" 20] ∧
    initSt.bookings <+: WstFinal.bookings :=
  ⟨C8_ledger_append_only.1 [] initSt 0 "CRTVC 5" "B" 540 "Scm 1" "M1" 20
      (inv_initSt []) (by decide) (by rfl),
   C8_ledger_append_only.2 Wstudents [] (buildWindows Wdata) initSt WstFinal
      (inv_initSt []) (by rfl)⟩

theorem foldl_min_le_init : ∀ (xs : List Nat) (a : Nat), xs.foldl Nat.min a ≤ a := by
  intro xs
  induction xs with
  | nil => intro a; exact le_refl a
  | cons x xs ih =>
    intro a
    calc (x :: xs).foldl Nat.min a = xs.foldl Nat.min (Nat.min a x) := rfl
    _ ≤ Nat.min a x := ih (Nat.min a x)
    _ ≤ a := Nat.min_le_left a x

theorem foldl_min_le_mem : ∀ (xs : List Nat) (a x : Nat), x ∈ xs →
    xs.foldl Nat.min a ≤ x := by
  intro xs
  induction xs with
  | nil => intro a x hx; exact absurd hx (List.not_mem_nil x)
  | cons y ys ih =>
    intro a x hx
    rcases List.mem_cons.mp hx with rfl | hx
    · calc (x :: ys).foldl Nat.min a = ys.foldl Nat.min (Nat.min a x) := rfl
      _ ≤ Nat.min a x := foldl_min_le_init ys (Nat.min a x)
      _ ≤ x := Nat.min_le_right a x
    · exact ih (Nat.min a y) x hx

theorem foldl_min_mem : ∀ (xs : List Nat) (a : Nat),
    xs.foldl Nat.min a = a ∨ xs.foldl Nat.min a ∈ xs := by
  intro xs
  induction xs with
  | nil => intro a; exact Or.inl rfl
  | cons y ys ih =>
    intro a
    rcases ih (Nat.min a y) with h | h
    · rcases Nat.le_total a y with hay | hya
      · exact Or.inl (by simpa [Nat.min_eq_left hay] using h)
      · refine Or.inr (List.mem_cons.mpr (Or.inl ?_))
        simpa [Nat.min_eq_right hya] using h
    · exact Or.inr (List.mem_cons.mpr (Or.inr h))

theorem listMin_le {l : List Nat} {x : Nat} (hx : x ∈ l) : listMin l ≤ x := by
  match l with
  | [] => exact absurd hx (List.not_mem_nil x)
  | y :: ys =>
    rcases List.mem_cons.mp hx with rfl | hx
    · exact foldl_min_le_init ys x
    · exact foldl_min_le_mem ys y x hx

theorem listMin_mem {l : List Nat} (h : l ≠ []) : listMin l ∈ l := by
  match l with
  | [] => exact absurd rfl h
  | y :: ys =>
    rcases foldl_min_mem ys y with h1 | h1
    · exact List.mem_cons.mpr (Or.inl h1)
    · exact List.mem_cons.mpr (Or.inr h1)

theorem foldl_max_init_le : ∀ (xs : List Nat) (a : Nat), a ≤ xs.foldl Nat.max a := by
  intro xs
  induction xs with
  | nil => intro a; exact le_refl a
  | cons x xs ih =>
    intro a
    calc a ≤ Nat.max a x := Nat.le_max_left a x
    _ ≤ xs.foldl Nat.max (Nat.max a x) := ih (Nat.max a x)
    _ = (x :: xs).foldl Nat.max a := rfl

theorem foldl_max_mem_le : ∀ (xs : List Nat) (a x : Nat), x ∈ xs →
    x ≤ xs.foldl Nat.max a := by
  intro xs
  induction xs with
  | nil => intro a x hx; exact absurd hx (List.not_mem_nil x)
  | cons y ys ih =>
    intro a x hx
    rcases List.mem_cons.mp hx with rfl | hx
    · calc x ≤ Nat.max a x := Nat.le_max_right a x
      _ ≤ ys.foldl Nat.max (Nat.max a x) := foldl_max_init_le ys (Nat.max a x)
      _ = (x :: ys).foldl Nat.max a := rfl
    · exact ih (Nat.max a y) x hx

theorem foldl_max_mem : ∀ (xs : List Nat) (a : Nat),
    xs.foldl Nat.max a = a ∨ xs.foldl Nat.max a ∈ xs := by
  intro xs
  induction xs with
  | nil => intro a; exact Or.inl rfl
  | cons y ys ih =>
    intro a
    rcases ih (Nat.max a y) with h | h
    · rcases Nat.le_total a y with hay | hya
      · refine Or.inr (List.mem_cons.mpr (Or.inl ?_))
        simpa [Nat.max_eq_right hay] using h
      · exact Or.inl (by simpa [Nat.max_eq_left hya] using h)
    · exact Or.inr (List.mem_cons.mpr (Or.inr h))

theorem le_listMax {l : List Nat} {x : Nat} (hx : x ∈ l) : x ≤ listMax l := by
  match l with
  | [] => exact absurd hx (List.not_mem_nil x)
  | y :: ys =>
    rcases List.mem_cons.mp hx with rfl | hx
    · exact foldl_max_init_le ys x
    · exact foldl_max_mem_le ys y x hx

theorem listMax_mem {l : List Nat} (h : l ≠ []) : listMax l ∈ l := by
  match l with
  | [] => exact absurd rfl h
  | y :: ys =>
    rcases foldl_max_mem ys y with h1 | h1
    · exact List.mem_cons.mpr (Or.inl h1)
    · exact List.mem_cons.mpr (Or.inr h1)

/-- Membership in a `(Course, Mod/Act)` group. -/
theorem mem_rowsFor {data : List Row} {k : String × String} {r : Row} :
    r ∈ rowsFor data k ↔ r ∈ data ∧ rowKey r = k := by
  simp only [rowsFor, List.mem_filter, Bool.and_eq_true, decide_eq_true_eq, rowKey]
  constructor
  · rintro ⟨hr, hc, hm⟩
    exact ⟨hr, by rw [hc, hm]⟩
  · rintro ⟨hr, hk⟩
    obtain ⟨hc, hm⟩ := Prod.mk.injEq .. ▸ hk
    exact ⟨hr, hc, hm⟩

/-- C7: `schedule` reduces the raw demand rows to exactly one window per
distinct `(Course, Mod/Act)` pair (the window keys are distinct and range
over exactly the keys occurring in the data); each window's open date is
the minimum open date and its close date the maximum close date over its
pair's rows; and the window list handed to the main loop is ascending in
`(close date, open date)`. -/
theorem C7_window_building (data : List Row) :
    ((buildWindows data).map winKey).Nodup ∧
    (∀ k, k ∈ (buildWindows data).map winKey ↔ k ∈ data.map rowKey) ∧
    (∀ w ∈ buildWindows data,
      (∃ r ∈ data, rowKey r = winKey w ∧ r.openD = w.openD) ∧
      (∀ r ∈ data, rowKey r = winKey w → w.openD ≤ r.openD) ∧
      (∃ r ∈ data, rowKey r = winKey w ∧ r.closeD = w.closeD) ∧
      (∀ r ∈ data, rowKey r = winKey w → r.closeD ≤ w.closeD)) ∧
    (buildWindows data).Pairwise winLe := by
  refine ⟨buildWindows_keys_nodup data, ?_, ?_, ?_⟩
  · intro k
    rw [(buildWindows_map_key_perm data).mem_iff, List.mem_dedup]
  · intro w hw
    have hw' : w ∈ (List.insertionSort keyLe ((data.map rowKey).dedup)).map
        (fun k => Window.mk k.1 k.2
          (listMin ((rowsFor data k).map Row.openD))
          (listMax ((rowsFor data k).map Row.closeD))) := by
      unfold buildWindows at hw
      exact (List.mem_insertionSort winLe).mp hw
    obtain ⟨k, hk, rfl⟩ := List.mem_map.mp hw'
    have hkdata : k ∈ data.map rowKey :=
      List.mem_dedup.mp ((List.mem_insertionSort keyLe).mp hk)
    obtain ⟨r0, hr0, hr0k⟩ := List.mem_map.mp hkdata
    have hr0mem : r0 ∈ rowsFor data k := mem_rowsFor.mpr ⟨hr0, hr0k⟩
    have hne : (rowsFor data k).map Row.openD ≠ [] := by
      intro hnil
      rw [List.map_eq_nil_iff] at hnil
      rw [hnil] at hr0mem
      exact absurd hr0mem (List.not_mem_nil r0)
    have hne2 : (rowsFor data k).map Row.closeD ≠ [] := by
      intro hnil
      rw [List.map_eq_nil_iff] at hnil
      rw [hnil] at hr0mem
      exact absurd hr0mem (List.not_mem_nil r0)
    refine ⟨?_, ?_, ?_, ?_⟩
    · obtain ⟨rm, hrm, hrmval⟩ := List.mem_map.mp (listMin_mem hne)
      obtain ⟨hrmdata, hrmkey⟩ := mem_rowsFor.mp hrm
      exact ⟨rm, hrmdata, hrmkey, hrmval⟩
    · intro r hr hrk
      exact listMin_le (List.mem_map_of_mem Row.openD (mem_rowsFor.mpr ⟨hr, hrk⟩))
    · obtain ⟨rm, hrm, hrmval⟩ := List.mem_map.mp (listMax_mem hne2)
      obtain ⟨hrmdata, hrmkey⟩ := mem_rowsFor.mp hrm
      exact ⟨rm, hrmdata, hrmkey, hrmval⟩
    · intro r hr hrk
      exact le_listMax (List.mem_map_of_mem Row.closeD (mem_rowsFor.mpr ⟨hr, hrk⟩))
  · unfold buildWindows
    exact @List.sorted_insertionSort Window winLe _
      ⟨fun a b => by unfold winLe; omega⟩
      ⟨fun a b c => by unfold winLe; omega⟩ _

theorem C7_window_building_witness :
    ((⟨"Scm 1", "M1"⟩ : String × String) ∈ (buildWindows Wdata).map winKey ↔
      (⟨"Scm 1", "M1"⟩ : String × String) ∈ Wdata.map rowKey) ∧
    WwinOut.openD ≤ (⟨"Scm 1", "M1", 0, 0⟩ : Row).openD :=
  ⟨(C7_window_building Wdata).2.1 (⟨"Scm 1", "M1"⟩ : String × String),
   ((C7_window_building Wdata).2.2.1 WwinOut (by decide)).2.1
     (⟨"Scm 1", "M1", 0, 0⟩ : Row) (by decide) (by decide)⟩

/-- C6: the Pass-1 structure. The total weight of an `N`-day window is
`1 + 2 + … + N = N(N+1)/2`; a day's start loop stops as soon as the daily
target or the window requirement is met; the day loop stops once the
requirement is met, and day `i` (0-indexed) runs its start loop against
the daily target `math.ceil((i+1) / total-weight * seats-required)` —
computed in exactly modelled binary64 arithmetic — with the day counter
advanced; candidate starts are tried in ascending order; pods are
tried in an order that is a permutation of the inventory sorted by
capacity descending then usage ascending; and the pod loop places exactly
the first pod accepted by `can_place`, if any. -/
theorem C6_pass1_structure :
    (∀ n, 2 * totalWeightOf n = n * (n + 1)) ∧
    (∀ (st : St) (day : Nat) (c m : String) (len req target tc df sh s : Nat)
       (rest : List Nat), req ≤ tc ∨ target ≤ df →
      pass1Starts st day c m len req target tc df sh (s :: rest) = (st, tc, df, sh)) ∧
    (∀ (st : St) (c m : String) (len req T i tc sh d : Nat) (ds : List Nat),
      req ≤ tc → pass1Days st c m len req T i tc sh (d :: ds) = (st, tc, sh)) ∧
    (∀ (st : St) (c m : String) (len req T i tc sh d : Nat) (ds : List Nat),
      tc < req →
      pass1Days st c m len req T i tc sh (d :: ds) =
        pass1Days (pass1Starts st d c m len req (daily_target (i + 1) T req) tc 0 sh
            (candidate_starts_for_date d len)).1
          c m len req T (i + 1)
          (pass1Starts st d c m len req (daily_target (i + 1) T req) tc 0 sh
            (candidate_starts_for_date d len)).2.1
          (pass1Starts st d c m len req (daily_target (i + 1) T req) tc 0 sh
            (candidate_starts_for_date d len)).2.2.2 ds) ∧
    (∀ day len, (candidate_starts_for_date day len).Pairwise (· < ·)) ∧
    (∀ st : St, (pods_sorted_for_slot st).Perm PODS ∧
      (pods_sorted_for_slot st).Pairwise (podLe st)) ∧
    (∀ (st : St) (day s : Nat) (c m : String) (len : Nat) (l : List Pod)
       (st' : St) (cap : Nat),
      tryPods st day s c m len l = some (st', cap) →
      ∃ l1 p l2, l = l1 ++ p :: l2 ∧
        (∀ q ∈ l1, can_place st day q.pod q.ops_group s c m len = false) ∧
        can_place st day p.pod p.ops_group s c m len = true ∧
        st' = placeAndRecord st day p s c m len ∧ cap = p.capacity) ∧
    (∀ (st : St) (day s : Nat) (c m : String) (len : Nat) (l : List Pod),
      tryPods st day s c m len l = none ↔
        ∀ p ∈ l, can_place st day p.pod p.ops_group s c m len = false) := by
  refine ⟨?_, ?_, ?_, ?_, ?_, ?_, ?_, ?_⟩
  · intro n
    induction n with
    | zero => rfl
    | succ n ih =>
      have hstep : totalWeightOf (n + 1) = totalWeightOf n + (1 + n) := by
        unfold totalWeightOf
        rw [List.range'_concat]
        simp
      rw [hstep, Nat.mul_add, ih]
      ring
  · intro st day c m len req target tc df sh s rest h
    simp only [pass1Starts, if_pos h]
  · intro st c m len req T i tc sh d ds h
    simp only [pass1Days, if_pos h]
  · intro st c m len req T i tc sh d ds h
    simp only [pass1Days, if_neg (Nat.not_le.mpr h)]
  · exact candidate_starts_ascending
  · intro st
    refine ⟨List.perm_insertionSort (podLe st) PODS, ?_⟩
    exact @List.sorted_insertionSort Pod (podLe st) _
      ⟨fun a b => by unfold podLe; omega⟩
      ⟨fun a b c => by unfold podLe; omega⟩ PODS
  · intro st day s c m len l
    induction l with
    | nil =>
      intro st' cap h
      exact absurd h (by simp [tryPods])
    | cons p ps ih =>
      intro st' cap h
      by_cases hc : can_place st day p.pod p.ops_group s c m len = true
      · simp only [tryPods, if_pos hc, Option.some.injEq] at h
        obtain ⟨h1, h2⟩ := Prod.mk.injEq .. ▸ h
        exact ⟨[], p, ps, by simp, by simp, hc, h1.symm, h2.symm⟩
      · simp only [tryPods, if_neg hc] at h
        obtain ⟨l1, q, l2, hl, hfail, hq, hst, hcap⟩ := ih st' cap h
        refine ⟨p :: l1, q, l2, by rw [hl]; rfl, ?_, hq, hst, hcap⟩
        intro x hx
        rcases List.mem_cons.mp hx with rfl | hx
        · simpa using hc
        · exact hfail x hx
  · intro st day s c m len l
    induction l with
    | nil =>
      simp [tryPods]
    | cons p ps ih =>
      by_cases hc : can_place st day p.pod p.ops_group s c m len = true
      · simp only [tryPods, if_pos hc]
        constructor
        · intro h
          exact absurd h (by simp)
        · intro h
          exact absurd (h p (List.mem_cons_self p ps)) (by simp [hc])
      · simp only [tryPods, if_neg hc]
        rw [ih]
        constructor
        · intro h q hq
          rcases List.mem_cons.mp hq with rfl | hq
          · simpa using hc
          · exact h q hq
        · intro h q hq
          exact h q (List.mem_cons_of_mem p hq)

theorem C6_pass1_structure_witness :
    2 * totalWeightOf 4 = 4 * (4 + 1) ∧
    pass1Starts initSt 0 "a" "b" 20 5 3 7 0 0 [540] = (initSt, 7, 0, 0) ∧
    pass1Days initSt "a" "b" 20 5 1 0 9 0 [0] = (initSt, 9, 0) ∧
    pass1Days initSt "a" "b" 20 5 1 0 0 0 [0] =
      pass1Days (pass1Starts initSt 0 "a" "b" 20 5 (daily_target (0 + 1) 1 5) 0 0 0
          (candidate_starts_for_date 0 20)).1
        "a" "b" 20 5 1 (0 + 1)
        (pass1Starts initSt 0 "a" "b" 20 5 (daily_target (0 + 1) 1 5) 0 0 0
          (candidate_starts_for_date 0 20)).2.1
        (pass1Starts initSt 0 "a" "b" 20 5 (daily_target (0 + 1) 1 5) 0 0 0
          (candidate_starts_for_date 0 20)).2.2.2 [] ∧
    (∃ l1 p l2, pods_sorted_for_slot initSt = l1 ++ p :: l2 ∧
      (∀ q ∈ l1, can_place initSt 0 q.pod q.ops_group 540 "Scm 1" "M1" 20 = false) ∧
      can_place initSt 0 p.pod p.ops_group 540 "Scm 1" "M1" 20 = true ∧
      placeAndRecord initSt 0 (⟨"CRTVC 5", 28, "B"⟩ : Pod) 540 "Scm 1" "M1" 20 =
        placeAndRecord initSt 0 p 540 "Scm 1" "M1" 20 ∧ 28 = p.capacity) :=
  ⟨C6_pass1_structure.1 4,
   C6_pass1_structure.2.1 initSt 0 "a" "b" 20 5 3 7 0 0 540 [] (Or.inl (by decide)),
   C6_pass1_structure.2.2.1 initSt "a" "b" 20 5 1 0 9 0 0 [] (by decide),
   C6_pass1_structure.2.2.2.1 initSt "a" "b" 20 5 1 0 0 0 0 [] (by decide),
   C6_pass1_structure.2.2.2.2.2.2.1 initSt 0 540 "Scm 1" "M1" 20
     (pods_sorted_for_slot initSt)
     (placeAndRecord initSt 0 (⟨"CRTVC 5", 28, "B"⟩ : Pod) 540 "Scm 1" "M1" 20) 28
     (by rfl)⟩
